import Mathlib

/-!
Verification of the graph assembly and reduction engine of the
`immune_homologues` repository.

The repository builds protein-protein interaction graphs with networkx.
We shallowly embed the graph value and the networkx operations the scripts
use (`add_node`, `add_edge`, `has_edge`, `compose`, `subgraph`,
`ego_graph`, `all_simple_paths`, `has_path`, `shortest_path_length`,
`is_connected`'s null-graph guard) and then embed, function by function,
the repository code in `string_db_parser.py`, `string_db_parser_single.py`,
`string_db_combined_graph.py` and `add_paralogs.py`.

Nodes are protein name strings; an edge is an unordered pair of endpoint
strings together with an attribute mapping (modelled as an association
list).  Python exceptions (`ValueError`, `NodeNotFound`,
`NetworkXPointlessConcept`, `TypeError` from `reduce` on an empty list,
`sys.exit(1)`) are modelled with `Except PyError`.
-/

/-- The ways the embedded code can abort, mirroring the Python exceptions
raised by the scripts and by networkx. -/
inductive PyError where
  /-- networkx `NodeNotFound`: a source/target/center node is absent. -/
  | nodeNotFound
  /-- networkx `NetworkXPointlessConcept`: `is_connected` on the null graph. -/
  | pointlessConcept
  /-- `ValueError` from the `2 < node_dist_threshold < 10` range check. -/
  | parameterRange
  /-- `sys.exit(1)` when no path exists between source and target. -/
  | pathNotFound
  /-- `TypeError` from `reduce` applied to an empty graph list. -/
  | emptyInput
  /-- `ValueError` from `make_graph` schema checks. -/
  | schemaError
deriving DecidableEq

/-- An edge-attribute mapping: attribute name to attribute value. -/
abbrev AttrList := List (String × String)

/-- A networkx undirected graph value: a node list and an edge list, each
edge an unordered endpoint pair with its attribute mapping. -/
structure Graph where
  nodes : List String
  edges : List (String × String × AttrList)
deriving DecidableEq

/-- The graph `nx.Graph()` starts from. -/
def nxEmpty : Graph := { nodes := [], edges := [] }

/-- Does the stored edge `e` join `u` and `v` (in either orientation)? -/
def edgeMatches (u v : String) (e : String × String × AttrList) : Bool :=
  (e.1 == u && e.2.1 == v) || (e.1 == v && e.2.1 == u)

/-- networkx `u in G`. -/
def hasNode (g : Graph) (u : String) : Bool :=
  g.nodes.contains u

/-- networkx `G.has_edge(u, v)` (unordered). -/
def hasEdge (g : Graph) (u v : String) : Bool :=
  g.edges.any (edgeMatches u v)

/-- networkx `G.edges[u, v]`: the attribute mapping of the first stored
edge joining `u` and `v`. -/
def edgeAttrs? (g : Graph) (u v : String) : Option AttrList :=
  (g.edges.find? (edgeMatches u v)).map (fun e => e.2.2)

/-- networkx `G.add_node(u)`. -/
def addNode (g : Graph) (u : String) : Graph :=
  if hasNode g u then g else { g with nodes := g.nodes ++ [u] }

/-- Python `dict.update` on attribute mappings: each key of `new` is
written over `old`, keys of `old` not in `new` survive. -/
def attrsUpdate (old new : AttrList) : AttrList :=
  new.foldl (fun acc kv =>
    if acc.any (fun p => p.1 == kv.1) then
      acc.map (fun p => if p.1 == kv.1 then (p.1, kv.2) else p)
    else acc ++ [kv]) old

/-- Replace the attribute mapping of the first stored edge joining `u` and
`v` by its `dict.update` with `attrs`. -/
def updateEdge (u v : String) (attrs : AttrList) :
    List (String × String × AttrList) → List (String × String × AttrList)
  | [] => []
  | e :: rest =>
    if edgeMatches u v e then (e.1, e.2.1, attrsUpdate e.2.2 attrs) :: rest
    else e :: updateEdge u v attrs rest

/-- networkx `G.add_edge(u, v, **attrs)`: adds missing endpoints as nodes;
if the unordered pair is already an edge its attribute dict is updated,
otherwise the new edge is appended. -/
def addEdge (g : Graph) (u v : String) (attrs : AttrList) : Graph :=
  if hasEdge g u v then
    { nodes := (addNode (addNode g u) v).nodes,
      edges := updateEdge u v attrs g.edges }
  else
    { nodes := (addNode (addNode g u) v).nodes,
      edges := g.edges ++ [(u, v, attrs)] }

/-- networkx `G.subgraph(keep)`: the induced subgraph on `keep ∩ G.nodes`. -/
def subgraphOn (g : Graph) (keep : List String) : Graph :=
  { nodes := g.nodes.filter (fun n => keep.contains n),
    edges := g.edges.filter (fun e => keep.contains e.1 && keep.contains e.2.1) }

/-- One breadth-first expansion: append every graph node not yet reached
that is adjacent to a reached node. -/
def ballStep (g : Graph) (l : List String) : List String :=
  l ++ g.nodes.filter (fun v => !(l.contains v) && l.any (fun u => hasEdge g u v))

/-- The nodes reachable from `u` by a walk of at most `k` edges (the
breadth-first ball of radius `k`), modelling networkx
`single_source_shortest_path_length(G, u, cutoff=k)`. -/
def ball (g : Graph) (u : String) : Nat → List String
  | 0 => [u]
  | k + 1 => ballStep g (ball g u k)

/-- Membership in the radius-`k` ball, as a Bool. -/
def ballMemB (g : Graph) (u : String) (k : Nat) (v : String) : Bool :=
  (ball g u k).contains v

/-- Search for the least `k` (starting at `k`, for `fuel` steps) with
`v ∈ ball g u k`. -/
def distSearch (g : Graph) (u v : String) : Nat → Nat → Option Nat
  | _, 0 => none
  | k, fuel + 1 => if ballMemB g u k v then some k else distSearch g u v (k + 1) fuel

/-- networkx `shortest_path_length(G, u, v)` as an `Option`:
`none` when `v` is unreachable from `u`.  The search range
`g.nodes.length + 1` covers every possible shortest distance. -/
def distOpt (g : Graph) (u v : String) : Option Nat :=
  distSearch g u v 0 (g.nodes.length + 1)

/-- networkx `has_path(G, u, v)`: raises `NodeNotFound` when either node is
absent, otherwise reports reachability. -/
def has_path (g : Graph) (u v : String) : Except PyError Bool :=
  if hasNode g u && hasNode g v then .ok (distOpt g u v).isSome
  else .error .nodeNotFound

/-- networkx `shortest_path_length(G, u, v)` where reachability is already
established (the scripts only call it under `has_path`). -/
def shortest_path_length (g : Graph) (u v : String) : Nat :=
  (distOpt g u v).getD 0

/-- The well-formedness invariants of the spec's graph data model: unique
node identifiers, edge endpoints present as nodes, endpoints distinct, and
each unordered pair stored at most once. -/
def WF (g : Graph) : Prop :=
  g.nodes.Nodup ∧
  (∀ e ∈ g.edges, e.1 ∈ g.nodes ∧ e.2.1 ∈ g.nodes) ∧
  (∀ e ∈ g.edges, e.1 ≠ e.2.1) ∧
  g.edges.Pairwise (fun e1 e2 =>
    ¬((e1.1 = e2.1 ∧ e1.2.1 = e2.2.1) ∨ (e1.1 = e2.2.1 ∧ e1.2.1 = e2.1)))

instance : DecidablePred WF := by
  intro g
  unfold WF
  infer_instance

/-- Adjacency of `a` and `b` in `g`, as a proposition. -/
def Adj (g : Graph) (a b : String) : Prop := hasEdge g a b = true

/-- `WalkConn g u v k`: some walk of at most `k` edges joins `u` to `v`
(node sequence of length at most `k + 1`, consecutive nodes adjacent). -/
def WalkConn (g : Graph) (u v : String) (k : Nat) : Prop :=
  ∃ p : List String, p.head? = some u ∧ p.getLast? = some v ∧
    List.Chain' (Adj g) p ∧ p.length ≤ k + 1

/-- `u` and `v` are in the same connected component: some walk of some
length joins them. -/
def Reachable (g : Graph) (u v : String) : Prop :=
  ∃ k, WalkConn g u v k

/-! ## `string_db_combined_graph.py` / `add_paralogs.py`: distance filtering -/

/-- The inner loop of `filter_by_distance` over the seed list: the minimum,
over the seeds reachable from `protein`, of the shortest path length
(`none` when no seed is reachable).  `has_path` raises `NodeNotFound` for a
seed absent from the graph. -/
def min_distance_over (g : Graph) (protein : String) :
    List String → Except PyError (Option Nat)
  | [] => .ok none
  | s :: rest =>
    match has_path g protein s with
    | .error e => .error e
    | .ok hp =>
      match min_distance_over g protein rest with
      | .error e => .error e
      | .ok md =>
        if hp then
          .ok (some (match md with
            | none => shortest_path_length g protein s
            | some m => min (shortest_path_length g protein s) m))
        else
          .ok md

/-- The outer loop of `filter_by_distance`: collect the vertices to remove,
skipping seeds, removing a non-seed vertex when its minimum distance to the
seeds exceeds the threshold (an unreachable vertex has distance infinity
and is always removed). -/
def vertices_to_remove (g : Graph) (seeds : List String) (t : Nat) :
    List String → Except PyError (List String)
  | [] => .ok []
  | p :: rest =>
    if seeds.contains p then vertices_to_remove g seeds t rest
    else
      match min_distance_over g p seeds with
      | .error e => .error e
      | .ok md =>
        match vertices_to_remove g seeds t rest with
        | .error e => .error e
        | .ok tail =>
          match md with
          | none => .ok (p :: tail)
          | some d => if t < d then .ok (p :: tail) else .ok tail

/-- `filter_by_distance(graph, initial_proteins, min_dist_treshold)` from
`string_db_combined_graph.py` (identical in `add_paralogs.py`): remove all
vertices farther than the threshold from every seed, then log
`nx.is_connected(filtered_graph)` — which raises
`NetworkXPointlessConcept` when the filtered graph has no nodes. -/
def filter_by_distance (g : Graph) (initial_proteins : List String)
    (min_dist_treshold : Nat) : Except PyError Graph :=
  match vertices_to_remove g initial_proteins min_dist_treshold g.nodes with
  | .error e => .error e
  | .ok rm =>
    if (g.nodes.filter (fun n => !(rm.contains n))).isEmpty then
      .error .pointlessConcept
    else
      .ok { nodes := g.nodes.filter (fun n => !(rm.contains n)),
            edges := g.edges.filter (fun e =>
              !(rm.contains e.1) && !(rm.contains e.2.1)) }

/-! ## Graph combination -/

/-- Add every node of a list to a graph (`add_node` already skips nodes
that are present, as the `if node not in combined_graph` guard does). -/
def addGraphNodes (c : Graph) (ns : List String) : Graph :=
  ns.foldl addNode c

/-- The edge loop of `add_paralogs.combine_graphs`: an edge is added with
its attributes only when the unordered pair is not yet present. -/
def addGraphEdgesGuarded (c : Graph)
    (es : List (String × String × AttrList)) : Graph :=
  es.foldl (fun c e => if hasEdge c e.1 e.2.1 then c else addEdge c e.1 e.2.1 e.2.2) c

/-- `combine_graphs(graph_list)` from `add_paralogs.py`: fold the graphs
into a fresh `nx.Graph()`, keeping the first occurrence of every node and
of every unordered edge pair (with its attributes). -/
def combine_graphs (graph_list : List Graph) : Graph :=
  graph_list.foldl (fun c g => addGraphEdgesGuarded (addGraphNodes c g.nodes) g.edges)
    nxEmpty

/-- The edge loop of networkx `compose`: `add_edges_from` calls `add_edge`,
which updates the attribute dict of an existing unordered pair. -/
def addGraphEdges (c : Graph) (es : List (String × String × AttrList)) : Graph :=
  es.foldl (fun c e => addEdge c e.1 e.2.1 e.2.2) c

/-- networkx `compose_all(graphs)`: start from a fresh graph and
`add_nodes_from`/`add_edges_from` each input in order, so attribute values
of later graphs take precedence key by key. -/
def compose_all (graphs : List Graph) : Graph :=
  graphs.foldl (fun R G => addGraphEdges (addGraphNodes R G.nodes) G.edges) nxEmpty

/-- networkx `compose(G, H)`. -/
def nxCompose (G H : Graph) : Graph :=
  compose_all [G, H]

/-- `combine_graphs(graphs_list)` from `string_db_combined_graph.py`:
`reduce(nx.compose, graphs_list)` — a `TypeError` on an empty list, the
graph itself for a singleton list. -/
def combine_graphs_reduce : List Graph → Except PyError Graph
  | [] => .error .emptyInput
  | g :: rest => .ok (rest.foldl nxCompose g)

/-! ## Graph building from edge-list records -/

/-- A pandas dataframe of edge records: the column names and the rows,
each row an association of column name to value. -/
structure DataFrame where
  cols : List String
  rows : List (List (String × String))

/-- The value a row holds in a column. -/
def rowVal (row : List (String × String)) (c : String) : String :=
  ((row.find? (fun p => p.1 == c)).map Prod.snd).getD ""

/-- networkx `from_pandas_edgelist(df, src, tgt)` with no attribute
columns: one `add_edge` per row between the two column values. -/
def from_pandas_edgelist (df : DataFrame) (src tgt : String) : Graph :=
  df.rows.foldl (fun g row => addEdge g (rowVal row src) (rowVal row tgt) []) nxEmpty

/-- `make_graph(df, left_node_colname, right_node_colname)` from
`string_db_parser.py` (identical in `string_db_parser_single.py` up to the
default column names): schema checks, then `from_pandas_edgelist`. -/
def make_graph (df : DataFrame) (left_node_colname right_node_colname : String) :
    Except PyError Graph :=
  if df.rows.isEmpty then .error .schemaError
  else if !(df.cols.contains left_node_colname) then .error .schemaError
  else if !(df.cols.contains right_node_colname) then .error .schemaError
  else .ok (from_pandas_edgelist df left_node_colname right_node_colname)

/-! ## Path extraction -/

instance (g : Graph) : DecidableRel (Adj g) :=
  fun a b => inferInstanceAs (Decidable (hasEdge g a b = true))

/-- Are consecutive nodes of `p` adjacent in `g`? -/
def chainB (g : Graph) : List String → Bool
  | [] => true
  | [_] => true
  | a :: b :: rest => hasEdge g a b && chainB g (b :: rest)

/-- Is `p` a simple path of `g` from `s` to `t`? -/
def isSimplePathB (g : Graph) (s t : String) (p : List String) : Bool :=
  p.head? == some s && p.getLast? == some t &&
    decide p.Nodup && chainB g p

/-- Every sequence of distinct nodes of `g`: the candidate pool from which
the simple paths are selected. -/
def candidatePaths (g : Graph) : List (List String) :=
  (g.nodes.dedup.sublists).flatMap List.permutations'

/-- networkx `all_simple_paths(G, source, target)` (as a set of paths):
every simple path of `g` from `s` to `t`. -/
def all_simple_paths (g : Graph) (s t : String) : List (List String) :=
  (candidatePaths g).filter (isSimplePathB g s t)

/-- `get_paths(graph, source_node, target_node, node_dist_threshold)` from
`string_db_parser.py`: range-check the threshold, then keep the simple
paths with at most `node_dist_threshold + 1` nodes.  There is no
connectivity check in this variant. -/
def get_paths (g : Graph) (source_node target_node : String)
    (node_dist_threshold : Int) : Except PyError (List (List String)) :=
  if ¬(2 < node_dist_threshold ∧ node_dist_threshold < 10) then
    .error .parameterRange
  else if !(hasNode g source_node) || !(hasNode g target_node) then
    .error .nodeNotFound
  else
    .ok ((all_simple_paths g source_node target_node).filter
      (fun p => (p.length : Int) ≤ node_dist_threshold + 1))

/-- `get_paths(...)` from `string_db_parser_single.py`: same range check,
then `nx.has_path` — `sys.exit(1)` when no path exists — and
`all_simple_paths` with `cutoff=node_dist_threshold` (at most
`node_dist_threshold` edges, so `node_dist_threshold + 1` nodes). -/
def get_paths_single (g : Graph) (source_node target_node : String)
    (node_dist_threshold : Int) : Except PyError (List (List String)) :=
  if ¬(2 < node_dist_threshold ∧ node_dist_threshold < 10) then
    .error .parameterRange
  else if !(hasNode g source_node) || !(hasNode g target_node) then
    .error .nodeNotFound
  else if (distOpt g source_node target_node).isSome then
    .ok ((all_simple_paths g source_node target_node).filter
      (fun p => (p.length : Int) ≤ node_dist_threshold + 1))
  else
    .error .pathNotFound

/-- `get_unique_internal_nodes(paths_list)`: the deduplicated union of the
`path[1:-1]` slices. -/
def get_unique_internal_nodes (paths_list : List (List String)) : List String :=
  (paths_list.flatMap (fun p => (p.drop 1).dropLast)).dedup

/-- `get_inner_subgraph(graph, unique_internal_nodes, source_node,
target_node)` from `string_db_parser.py`:
`graph.subgraph(unique_internal_nodes + [source_node, target_node])`. -/
def get_inner_subgraph (g : Graph) (unique_internal_nodes : List String)
    (source_node target_node : String) : Graph :=
  subgraphOn g (unique_internal_nodes ++ [source_node, target_node])

/-- The `extract_bounded_paths` pipeline of `string_db_parser.py`'s `main`:
`get_paths`, then the induced subgraph on the internal nodes plus the two
endpoints. -/
def extract_bounded_paths (g : Graph) (s t : String) (k : Int) :
    Except PyError (List (List String) × Graph) :=
  match get_paths g s t k with
  | .error e => .error e
  | .ok ps => .ok (ps, get_inner_subgraph g (get_unique_internal_nodes ps) s t)

/-! ## Neighborhood extraction -/

/-- networkx `ego_graph(graph, protein, radius, undirected=True)` as used
by `get_inner_subgraph` in `string_db_parser_single.py`: `NodeNotFound`
when the center is absent, otherwise the induced subgraph on the nodes at
hop distance at most `radius` from the center. -/
def ego_graph (g : Graph) (center : String) (radius : Nat) :
    Except PyError Graph :=
  if !(hasNode g center) then .error .nodeNotFound
  else .ok (subgraphOn g (ball g center radius))

/-! ## Seed-list parsing -/

/-- The whitespace characters removed by Python `str.strip()`. -/
def isPySpace (c : Char) : Bool :=
  c == ' ' || c == '\t' || c == '\n' || c == '\r' || c == '\x0b' || c == '\x0c'

/-- Split a character list at newline characters, keeping empty
segments (the segment after a trailing newline included). -/
def splitNl : List Char → List (List Char)
  | [] => [[]]
  | c :: rest =>
    if c = '\n' then [] :: splitNl rest
    else
      match splitNl rest with
      | [] => [[c]]
      | l :: ls => (c :: l) :: ls

/-- Python `file.readlines()` on the file's text: one entry per line (the
line terminators, kept by Python, are irrelevant after stripping and are
dropped here); a trailing newline does not open a final empty line, and an
empty file has no lines. -/
def pyReadlines (content : String) : List String :=
  (if (splitNl content.data).getLast? = some [] then
    (splitNl content.data).dropLast
  else
    splitNl content.data).map String.mk

/-- Python `str.strip()`: remove leading and trailing whitespace. -/
def pyStrip (s : String) : String :=
  String.mk (((s.data.dropWhile isPySpace).reverse.dropWhile isPySpace).reverse)

/-- `read_proteins_file` from `string_db_combined_graph.py` (identical in
`add_paralogs.py`), applied to the file's text:
`[line.strip() for line in lines]`. -/
def read_proteins_file (content : String) : List String :=
  (pyReadlines content).map pyStrip

/-! ## Concrete example values -/

/-- The path graph A - B - C. -/
def gPath3 : Graph :=
  { nodes := ["A", "B", "C"],
    edges := [("A", "B", []), ("B", "C", [])] }

/-- A single isolated node. -/
def gSolo : Graph := { nodes := ["A"], edges := [] }

/-- Two disconnected components: A - B and C - D. -/
def gDisc : Graph :=
  { nodes := ["A", "B", "C", "D"],
    edges := [("A", "B", []), ("C", "D", [])] }

/-- Two parallel three-node paths A - B - C and A - D - C. -/
def gDiamond : Graph :=
  { nodes := ["A", "B", "C", "D"],
    edges := [("A", "B", []), ("B", "C", []), ("A", "D", []), ("D", "C", [])] }

/-- A graph holding edge (A, B) with attribute `score = 1`. -/
def gAttr1 : Graph :=
  { nodes := ["A", "B"], edges := [("A", "B", [("score", "1")])] }

/-- A graph holding edge (A, B) with attribute `score = 2`. -/
def gAttr2 : Graph :=
  { nodes := ["A", "B"], edges := [("A", "B", [("score", "2")])] }

/-- An edge list whose single record carries the same protein in the
source column and in the target column. -/
def dfSelfLoop : DataFrame :=
  { cols := ["#node1", "node2"],
    rows := [[("#node1", "A"), ("node2", "A")]] }

/-! ## Basic lemmas about the graph primitives -/

theorem hasNode_iff {g : Graph} {u : String} : hasNode g u = true ↔ u ∈ g.nodes := by
  simp [hasNode]

theorem edgeMatches_iff {u v : String} {e : String × String × AttrList} :
    edgeMatches u v e = true ↔ (e.1 = u ∧ e.2.1 = v) ∨ (e.1 = v ∧ e.2.1 = u) := by
  simp [edgeMatches]

theorem hasEdge_iff {g : Graph} {u v : String} :
    hasEdge g u v = true ↔ ∃ e ∈ g.edges, edgeMatches u v e = true := by
  simp [hasEdge, List.any_eq_true]

theorem hasEdge_symm (g : Graph) (u v : String) : hasEdge g u v = hasEdge g v u := by
  simp only [hasEdge]
  congr 1
  funext e
  simp only [edgeMatches]
  rw [Bool.or_comm]

/-! ## Breadth-first ball lemmas -/

theorem subset_ballStep (g : Graph) (l : List String) : l ⊆ ballStep g l :=
  List.subset_append_left _ _

theorem ball_mono_succ (g : Graph) (u : String) (k : Nat) :
    ball g u k ⊆ ball g u (k + 1) :=
  subset_ballStep g _

theorem ball_mono (g : Graph) (u : String) {k m : Nat} (h : k ≤ m) :
    ball g u k ⊆ ball g u m := by
  induction m with
  | zero =>
    have : k = 0 := Nat.le_zero.mp h
    subst this
    exact fun x hx => hx
  | succ m ih =>
    rcases Nat.lt_or_ge k (m + 1) with h' | h'
    · exact fun x hx => ball_mono_succ g u m (ih (Nat.lt_succ_iff.mp h') hx)
    · have : k = m + 1 := Nat.le_antisymm h h'
      subst this
      exact fun x hx => hx

theorem self_mem_ball (g : Graph) (u : String) (k : Nat) : u ∈ ball g u k :=
  ball_mono g u (Nat.zero_le k) (by simp [ball])

theorem mem_ballStep {g : Graph} {l : List String} {v : String} :
    v ∈ ballStep g l ↔
      v ∈ l ∨ (v ∈ g.nodes ∧ v ∉ l ∧ ∃ u ∈ l, hasEdge g u v = true) := by
  simp [ballStep, List.mem_filter, List.any_eq_true]

theorem walkConn_mono {g : Graph} {u v : String} {k m : Nat} (h : k ≤ m)
    (hw : WalkConn g u v k) : WalkConn g u v m := by
  obtain ⟨p, hh, hl, hc, hlen⟩ := hw
  exact ⟨p, hh, hl, hc, hlen.trans (by omega)⟩

theorem walkConn_refl (g : Graph) (u : String) (k : Nat) : WalkConn g u u k :=
  ⟨[u], rfl, rfl, List.chain'_singleton u, by simp⟩

theorem walkConn_extend {g : Graph} {u w v : String} {k : Nat}
    (h : WalkConn g u w k) (ha : Adj g w v) : WalkConn g u v (k + 1) := by
  obtain ⟨p, hh, hl, hc, hlen⟩ := h
  refine ⟨p ++ [v], ?_, by simp, ?_, ?_⟩
  · rw [List.head?_append]
    rw [hh]
    rfl
  · rw [List.chain'_append]
    refine ⟨hc, List.chain'_singleton v, ?_⟩
    intro x hx y hy
    simp only [List.head?_cons, Option.mem_def, Option.some.injEq] at hy
    rw [hl] at hx
    simp only [Option.mem_def, Option.some.injEq] at hx
    subst hx
    subst hy
    exact ha
  · simp only [List.length_append, List.length_singleton]
    omega

theorem ball_sound {g : Graph} {u v : String} {k : Nat}
    (h : v ∈ ball g u k) : WalkConn g u v k := by
  induction k generalizing v with
  | zero =>
    simp only [ball, List.mem_singleton] at h
    subst h
    exact walkConn_refl g v 0
  | succ k ih =>
    rw [ball, mem_ballStep] at h
    rcases h with h | ⟨_, _, w, hw, ha⟩
    · exact walkConn_mono (Nat.le_succ k) (ih h)
    · exact walkConn_extend (ih hw) ha

theorem adj_mem {g : Graph} (hwf : WF g) {w v : String} (h : Adj g w v) :
    w ∈ g.nodes ∧ v ∈ g.nodes := by
  obtain ⟨e, he, hm⟩ := hasEdge_iff.mp h
  have := hwf.2.1 e he
  rcases edgeMatches_iff.mp hm with ⟨h1, h2⟩ | ⟨h1, h2⟩
  · exact ⟨by rw [← h1]; tauto, by rw [← h2]; tauto⟩
  · exact ⟨by rw [← h2]; tauto, by rw [← h1]; tauto⟩

theorem ball_complete {g : Graph} (hwf : WF g) {u v : String} {k : Nat}
    (h : WalkConn g u v k) : v ∈ ball g u k := by
  induction k generalizing v with
  | zero =>
    obtain ⟨p, hh, hl, _, hlen⟩ := h
    match p, hh, hl, hlen with
    | [a], hh, hl, _ =>
      simp only [List.head?_cons, Option.some.injEq] at hh
      simp only [List.getLast?_singleton, Option.some.injEq] at hl
      subst hh
      subst hl
      simp [ball]
  | succ k ih =>
    obtain ⟨p, hh, hl, hc, hlen⟩ := h
    by_cases hsmall : p.length ≤ k + 1
    · exact ball_mono_succ _ _ _ (ih ⟨p, hh, hl, hc, hsmall⟩)
    · have hne : p ≠ [] := by
        intro hnil
        rw [hnil] at hh
        exact Option.noConfusion hh
      have hlastv : p.getLast hne = v := by
        have := List.getLast?_eq_getLast p hne
        rw [hl] at this
        exact (Option.some.injEq _ _ ▸ this.symm)
      have hsplit : p.dropLast ++ [v] = p := by
        rw [← hlastv]
        exact List.dropLast_append_getLast hne
      have hlen2 : 2 ≤ p.length := by omega
      have hdne : p.dropLast ≠ [] := by
        intro hnil
        have := congrArg List.length hsplit
        simp [hnil] at this
        omega
      -- the walk without its final node
      have hh' : p.dropLast.head? = some u := by
        rw [← hsplit] at hh
        rw [List.head?_append] at hh
        cases hd : p.dropLast.head? with
        | none => exact absurd (List.head?_eq_none_iff.mp hd) hdne
        | some a =>
          rw [hd] at hh
          exact hh
      obtain ⟨w, hwlast⟩ : ∃ w, p.dropLast.getLast? = some w :=
        ⟨p.dropLast.getLast hdne, List.getLast?_eq_getLast _ hdne⟩
      have hc' : List.Chain' (Adj g) p.dropLast ∧ Adj g w v := by
        rw [← hsplit] at hc
        rw [List.chain'_append] at hc
        refine ⟨hc.1, ?_⟩
        apply hc.2.2 w (by rw [hwlast]; rfl) v rfl
      have hwlk : WalkConn g u w k := by
        refine ⟨p.dropLast, hh', hwlast, hc'.1, ?_⟩
        have := congrArg List.length hsplit
        simp only [List.length_append, List.length_singleton] at this
        omega
      have hwball := ih hwlk
      by_cases hvin : v ∈ ball g u k
      · exact ball_mono_succ _ _ _ hvin
      · rw [ball, mem_ballStep]
        exact Or.inr ⟨(adj_mem hwf hc'.2).2, hvin, w, hwball, hc'.2⟩

theorem ball_nodup {g : Graph} (hwf : WF g) (u : String) (k : Nat) :
    (ball g u k).Nodup := by
  induction k with
  | zero => simp [ball]
  | succ k ih =>
    rw [ball, ballStep]
    refine List.Nodup.append ih (hwf.1.filter _) ?_
    intro x hx hx'
    have := (List.mem_filter.mp hx').2
    simp only [Bool.and_eq_true, Bool.not_eq_true'] at this
    have : x ∉ ball g u k := by
      intro hmem
      have hcont : (ball g u k).contains x = true := List.elem_eq_true_of_mem hmem
      rw [hcont] at this
      exact Bool.noConfusion this.1
    exact this hx

theorem ball_subset (g : Graph) (u : String) (k : Nat) :
    ball g u k ⊆ u :: g.nodes := by
  induction k with
  | zero => simp [ball]
  | succ k ih =>
    rw [ball, ballStep]
    intro x hx
    rcases List.mem_append.mp hx with h | h
    · exact ih h
    · exact List.mem_cons_of_mem u (List.mem_of_mem_filter h)

theorem ball_length_le {g : Graph} (hwf : WF g) (u : String) (k : Nat) :
    (ball g u k).length ≤ g.nodes.length + 1 := by
  have h := ((ball_nodup hwf u k).subperm (ball_subset g u k)).length_le
  simpa using h

theorem ball_succ_len {g : Graph} {u : String} {k : Nat}
    (h : ball g u (k + 1) ≠ ball g u k) :
    (ball g u k).length + 1 ≤ (ball g u (k + 1)).length := by
  rw [ball] at h ⊢
  unfold ballStep at h ⊢
  generalize hF : List.filter _ g.nodes = F at h ⊢
  cases F with
  | nil => simp at h
  | cons a rest =>
    simp only [List.length_append, List.length_cons]
    omega

theorem ball_stable {g : Graph} {u : String} {k : Nat}
    (h : ball g u (k + 1) = ball g u k) (m : Nat) :
    ball g u (k + m) = ball g u k := by
  induction m with
  | zero => rfl
  | succ m ih =>
    have : k + (m + 1) = (k + m) + 1 := by omega
    rw [this, ball, ih, ← ball, h]

theorem ball_exists_fix {g : Graph} (hwf : WF g) (u : String) :
    ∃ k ≤ g.nodes.length, ball g u (k + 1) = ball g u k := by
  by_contra hcon
  push_neg at hcon
  have grow : ∀ k, k ≤ g.nodes.length + 1 → k + 1 ≤ (ball g u k).length := by
    intro k
    induction k with
    | zero => intro _; simp [ball]
    | succ k ih =>
      intro hk
      have h1 := ih (by omega)
      have h2 := ball_succ_len (hcon k (by omega))
      omega
  have h1 := grow (g.nodes.length + 1) le_rfl
  have h2 := ball_length_le hwf u (g.nodes.length + 1)
  omega

theorem ballMem_sat {g : Graph} (hwf : WF g) {u v : String} {t : Nat}
    (h : v ∈ ball g u t) : v ∈ ball g u g.nodes.length := by
  obtain ⟨k, hk, hfix⟩ := ball_exists_fix hwf u
  rcases le_or_lt t g.nodes.length with ht | ht
  · exact ball_mono g u ht h
  · have h1 : ball g u t = ball g u k := by
      have : t = k + (t - k) := by omega
      rw [this]
      exact ball_stable hfix _
    have h2 : ball g u g.nodes.length = ball g u k := by
      have : g.nodes.length = k + (g.nodes.length - k) := by omega
      rw [this]
      exact ball_stable hfix _
    rw [h2]
    rw [h1] at h
    exact h

theorem walkConn_iff_mem_ball {g : Graph} (hwf : WF g) {u v : String} {k : Nat} :
    WalkConn g u v k ↔ v ∈ ball g u k :=
  ⟨ball_complete hwf, ball_sound⟩

theorem reachable_iff_mem_ball {g : Graph} (hwf : WF g) {u v : String} :
    Reachable g u v ↔ v ∈ ball g u g.nodes.length :=
  ⟨fun ⟨_, hw⟩ => ballMem_sat hwf (ball_complete hwf hw),
   fun h => ⟨_, ball_sound h⟩⟩

/-! ## Shortest-path-length lemmas -/

theorem ballMemB_iff {g : Graph} {u v : String} {k : Nat} :
    ballMemB g u k v = true ↔ v ∈ ball g u k := by
  simp [ballMemB]

theorem distSearch_some {g : Graph} {u v : String} :
    ∀ {fuel start d : Nat}, distSearch g u v start fuel = some d →
      start ≤ d ∧ d < start + fuel ∧ v ∈ ball g u d ∧
        ∀ j, start ≤ j → j < d → v ∉ ball g u j := by
  intro fuel
  induction fuel with
  | zero => intro start d h; exact Option.noConfusion h
  | succ fuel ih =>
    intro start d h
    rw [distSearch] at h
    by_cases hb : ballMemB g u start v = true
    · rw [if_pos hb] at h
      have hd : start = d := Option.some.injEq _ _ ▸ h
      subst hd
      exact ⟨le_rfl, by omega, ballMemB_iff.mp hb, fun j h1 h2 => absurd (h1.trans_lt h2) (lt_irrefl _)⟩
    · rw [if_neg hb] at h
      obtain ⟨h1, h2, h3, h4⟩ := ih h
      refine ⟨by omega, by omega, h3, ?_⟩
      intro j hj1 hj2
      rcases Nat.eq_or_lt_of_le hj1 with rfl | hj
      · exact fun hm => hb (ballMemB_iff.mpr hm)
      · exact h4 j hj hj2

theorem distSearch_none {g : Graph} {u v : String} :
    ∀ {fuel start : Nat}, distSearch g u v start fuel = none →
      ∀ j, start ≤ j → j < start + fuel → v ∉ ball g u j := by
  intro fuel
  induction fuel with
  | zero => intro start _ j h1 h2; omega
  | succ fuel ih =>
    intro start h j h1 h2
    rw [distSearch] at h
    by_cases hb : ballMemB g u start v = true
    · rw [if_pos hb] at h
      exact Option.noConfusion h
    · rw [if_neg hb] at h
      rcases Nat.eq_or_lt_of_le h1 with rfl | hj
      · exact fun hm => hb (ballMemB_iff.mpr hm)
      · exact ih h j hj (by omega)

theorem distOpt_some {g : Graph} {u v : String} {d : Nat}
    (h : distOpt g u v = some d) :
    d ≤ g.nodes.length ∧ v ∈ ball g u d ∧ ∀ j < d, v ∉ ball g u j := by
  obtain ⟨_, h2, h3, h4⟩ := distSearch_some h
  exact ⟨by omega, h3, fun j hj => h4 j (Nat.zero_le j) hj⟩

theorem distOpt_none {g : Graph} {u v : String}
    (h : distOpt g u v = none) : v ∉ ball g u g.nodes.length :=
  distSearch_none h g.nodes.length (Nat.zero_le _) (by omega)

theorem distOpt_isSome_of_mem {g : Graph} {u v : String} {t : Nat}
    (hwf : WF g) (h : v ∈ ball g u t) : (distOpt g u v).isSome := by
  cases hd : distOpt g u v with
  | none => exact absurd (ballMem_sat hwf h) (distOpt_none hd)
  | some d => rfl

theorem distOpt_le_iff {g : Graph} {u v : String} {d t : Nat}
    (h : distOpt g u v = some d) : d ≤ t ↔ v ∈ ball g u t := by
  obtain ⟨_, h2, h3⟩ := distOpt_some h
  constructor
  · intro hle
    exact ball_mono g u hle h2
  · intro hm
    by_contra hlt
    exact h3 t (by omega) hm

theorem walkConn_iff_dist {g : Graph} (hwf : WF g) {u v : String} {t : Nat} :
    (∃ d, distOpt g u v = some d ∧ d ≤ t) ↔ WalkConn g u v t := by
  constructor
  · rintro ⟨d, hd, hle⟩
    exact ball_sound ((distOpt_le_iff hd).mp hle)
  · intro hw
    have hm := ball_complete hwf hw
    have hs := distOpt_isSome_of_mem hwf hm
    obtain ⟨d, hd⟩ := Option.isSome_iff_exists.mp hs
    exact ⟨d, hd, (distOpt_le_iff hd).mpr hm⟩

theorem reachable_iff_distOpt {g : Graph} (hwf : WF g) {u v : String} :
    Reachable g u v ↔ (distOpt g u v).isSome := by
  constructor
  · rintro ⟨k, hw⟩
    exact distOpt_isSome_of_mem hwf (ball_complete hwf hw)
  · intro hs
    obtain ⟨d, hd⟩ := Option.isSome_iff_exists.mp hs
    exact ⟨d, ball_sound (distOpt_some hd).2.1⟩

/-! ## `filter_by_distance` lemmas -/

theorem has_path_ok {g : Graph} {u v : String} {b : Bool}
    (h : has_path g u v = .ok b) :
    u ∈ g.nodes ∧ v ∈ g.nodes ∧ b = (distOpt g u v).isSome := by
  unfold has_path at h
  split at h
  · rename_i hcond
    simp only [Bool.and_eq_true, hasNode_iff] at hcond
    cases h
    exact ⟨hcond.1, hcond.2, rfl⟩
  · exact Except.noConfusion h

theorem min_distance_over_ok {g : Graph} (hwf : WF g) {protein : String} :
    ∀ {seeds : List String} {r : Option Nat},
      min_distance_over g protein seeds = .ok r → ∀ t,
      ((∃ d, r = some d ∧ d ≤ t) ↔ ∃ s ∈ seeds, WalkConn g protein s t) := by
  intro seeds
  induction seeds with
  | nil =>
    intro r h t
    rw [min_distance_over] at h
    cases h
    simp
  | cons s rest ih =>
    intro r h t
    rw [min_distance_over] at h
    split at h
    · exact Except.noConfusion h
    · rename_i hp hhp
      split at h
      · exact Except.noConfusion h
      · rename_i md hmd
        have hmem := has_path_ok hhp
        split at h
        · rename_i hptrue
          cases h
          rw [hptrue] at hmem
          obtain ⟨d0, hd0⟩ := Option.isSome_iff_exists.mp hmem.2.2.symm
          have hspl : shortest_path_length g protein s = d0 := by
            simp [shortest_path_length, hd0]
          have hkey : d0 ≤ t ↔ WalkConn g protein s t := by
            rw [← walkConn_iff_dist hwf]
            constructor
            · intro hle
              exact ⟨d0, hd0, hle⟩
            · rintro ⟨d', hd', hle⟩
              rw [hd0] at hd'
              cases hd'
              exact hle
          have hih := ih hmd t
          constructor
          · rintro ⟨d, hd, hle⟩
            injection hd with hd
            cases md with
            | none =>
              simp only at hd
              rw [hspl] at hd
              subst hd
              exact ⟨s, List.mem_cons_self s rest, hkey.mp hle⟩
            | some m =>
              simp only at hd
              rw [hspl] at hd
              subst hd
              rcases min_le_iff.mp hle with h' | h'
              · exact ⟨s, List.mem_cons_self s rest, hkey.mp h'⟩
              · obtain ⟨s', hs', hw⟩ := hih.mp ⟨m, rfl, h'⟩
                exact ⟨s', List.mem_cons_of_mem s hs', hw⟩
          · rintro ⟨s', hs', hw⟩
            rcases List.mem_cons.mp hs' with rfl | hs'
            · cases md with
              | none => exact ⟨_, rfl, by rw [hspl]; exact hkey.mpr hw⟩
              | some m =>
                refine ⟨_, rfl, ?_⟩
                rw [hspl]
                exact min_le_iff.mpr (Or.inl (hkey.mpr hw))
            · obtain ⟨m, hm, hle⟩ := hih.mpr ⟨s', hs', hw⟩
              rw [hm, hspl]
              exact ⟨_, rfl, min_le_iff.mpr (Or.inr hle)⟩
        · rename_i hpfalse
          cases h
          have hnone : distOpt g protein s = none := by
            cases hd : distOpt g protein s with
            | none => rfl
            | some d =>
              rw [Bool.not_eq_true] at hpfalse
              rw [hpfalse] at hmem
              rw [hd] at hmem
              exact Bool.noConfusion hmem.2.2
          have hnw : ¬WalkConn g protein s t := by
            intro hw
            obtain ⟨d, hd, _⟩ := (walkConn_iff_dist hwf).mpr hw
            rw [hnone] at hd
            exact Option.noConfusion hd
          rw [ih hmd t]
          constructor
          · rintro ⟨s', hs', hw⟩
            exact ⟨s', List.mem_cons_of_mem s hs', hw⟩
          · rintro ⟨s', hs', hw⟩
            rcases List.mem_cons.mp hs' with rfl | hs'
            · exact absurd hw hnw
            · exact ⟨s', hs', hw⟩

theorem min_distance_over_isOk {g : Graph} {protein : String} {seeds : List String}
    (hp : protein ∈ g.nodes) (hs : ∀ s ∈ seeds, s ∈ g.nodes) :
    ∃ r, min_distance_over g protein seeds = .ok r := by
  induction seeds with
  | nil => exact ⟨none, rfl⟩
  | cons s rest ih =>
    obtain ⟨r', hr'⟩ := ih (fun x hx => hs x (List.mem_cons_of_mem s hx))
    have hhp : has_path g protein s = .ok (distOpt g protein s).isSome := by
      unfold has_path
      rw [if_pos]
      simp [hasNode_iff, hp, hs s (List.mem_cons_self s rest)]
    cases hb : (distOpt g protein s).isSome with
    | false =>
      refine ⟨r', ?_⟩
      rw [min_distance_over, hhp, hb, hr']
      rfl
    | true =>
      cases r' with
      | none =>
        refine ⟨some (shortest_path_length g protein s), ?_⟩
        rw [min_distance_over, hhp, hb, hr']
        rfl
      | some m =>
        refine ⟨some (min (shortest_path_length g protein s) m), ?_⟩
        rw [min_distance_over, hhp, hb, hr']
        rfl

theorem vertices_to_remove_ok {g : Graph} (hwf : WF g) {seeds : List String} {t : Nat} :
    ∀ {l rm : List String},
      vertices_to_remove g seeds t l = .ok rm →
      ∀ x, x ∈ rm ↔ x ∈ l ∧ x ∉ seeds ∧ ¬∃ s ∈ seeds, WalkConn g x s t := by
  intro l
  induction l with
  | nil =>
    intro rm h x
    rw [vertices_to_remove] at h
    cases h
    simp
  | cons p rest ih =>
    intro rm h x
    rw [vertices_to_remove] at h
    split at h
    · rename_i hps
      have hpmem : p ∈ seeds := by simpa using hps
      rw [ih h x]
      constructor
      · rintro ⟨h1, h2, h3⟩
        exact ⟨List.mem_cons_of_mem p h1, h2, h3⟩
      · rintro ⟨h1, h2, h3⟩
        rcases List.mem_cons.mp h1 with rfl | h1
        · exact absurd hpmem h2
        · exact ⟨h1, h2, h3⟩
    · rename_i hps
      have hpnmem : p ∉ seeds := fun hmem => hps (by simpa using hmem)
      split at h
      · exact Except.noConfusion h
      · rename_i md hmd
        split at h
        · exact Except.noConfusion h
        · rename_i tail htail
          have hkey := min_distance_over_ok hwf hmd t
          have hiht := ih htail
          split at h
          · -- md = none: p is removed
            injection h with h
            subst h
            have hno : ¬∃ s ∈ seeds, WalkConn g p s t := by
              intro hex
              obtain ⟨d, hd, _⟩ := hkey.mpr hex
              exact Option.noConfusion hd
            constructor
            · intro hx
              rcases List.mem_cons.mp hx with rfl | hx
              · exact ⟨List.mem_cons_self x rest, hpnmem, hno⟩
              · obtain ⟨h1, h2, h3⟩ := (hiht x).mp hx
                exact ⟨List.mem_cons_of_mem p h1, h2, h3⟩
            · rintro ⟨h1, h2, h3⟩
              rcases List.mem_cons.mp h1 with rfl | h1
              · exact List.mem_cons_self x tail
              · exact List.mem_cons_of_mem p ((hiht x).mpr ⟨h1, h2, h3⟩)
          · -- md = some d
            rename_i d
            split at h
            · -- t < d: p is removed
              rename_i htd
              injection h with h
              subst h
              have hno : ¬∃ s ∈ seeds, WalkConn g p s t := by
                intro hex
                obtain ⟨d', hd', hle⟩ := hkey.mpr hex
                injection hd' with hd'
                omega
              constructor
              · intro hx
                rcases List.mem_cons.mp hx with rfl | hx
                · exact ⟨List.mem_cons_self x rest, hpnmem, hno⟩
                · obtain ⟨h1, h2, h3⟩ := (hiht x).mp hx
                  exact ⟨List.mem_cons_of_mem p h1, h2, h3⟩
              · rintro ⟨h1, h2, h3⟩
                rcases List.mem_cons.mp h1 with rfl | h1
                · exact List.mem_cons_self x tail
                · exact List.mem_cons_of_mem p ((hiht x).mpr ⟨h1, h2, h3⟩)
            · -- d ≤ t: p is kept
              rename_i htd
              injection h with h
              subst h
              have hyes : ∃ s ∈ seeds, WalkConn g p s t :=
                hkey.mp ⟨d, rfl, by omega⟩
              rw [hiht x]
              constructor
              · rintro ⟨h1, h2, h3⟩
                exact ⟨List.mem_cons_of_mem p h1, h2, h3⟩
              · rintro ⟨h1, h2, h3⟩
                rcases List.mem_cons.mp h1 with rfl | h1
                · exact absurd hyes h3
                · exact ⟨h1, h2, h3⟩

theorem vertices_to_remove_isOk {g : Graph} {seeds : List String} {t : Nat}
    (hs : ∀ s ∈ seeds, s ∈ g.nodes) :
    ∀ {l : List String}, l ⊆ g.nodes →
      ∃ rm, vertices_to_remove g seeds t l = .ok rm := by
  intro l
  induction l with
  | nil => intro _; exact ⟨[], rfl⟩
  | cons p rest ih =>
    intro hl
    obtain ⟨tail, htail⟩ := ih (fun x hx => hl (List.mem_cons_of_mem p hx))
    by_cases hps : seeds.contains p = true
    · refine ⟨tail, ?_⟩
      rw [vertices_to_remove, if_pos hps]
      exact htail
    · obtain ⟨r', hr'⟩ :=
        min_distance_over_isOk (hl (List.mem_cons_self p rest)) hs
      have hpn : p ∉ seeds := fun hmem => hps (by simpa using hmem)
      cases r' with
      | none => exact ⟨p :: tail, by simp [vertices_to_remove, hpn, hr', htail]⟩
      | some d =>
        by_cases htd : t < d
        · exact ⟨p :: tail, by simp [vertices_to_remove, hpn, hr', htail, htd]⟩
        · exact ⟨tail, by simp [vertices_to_remove, hpn, hr', htail, htd]⟩


theorem contains_eq_false_iff {l : List String} {a : String} :
    l.contains a = false ↔ a ∉ l := by
  simp

theorem filter_by_distance_ok {g : Graph} (hwf : WF g) {seeds : List String}
    {t : Nat} {g' : Graph} (h : filter_by_distance g seeds t = .ok g') :
    (∀ n, n ∈ g'.nodes ↔
        n ∈ g.nodes ∧ (n ∈ seeds ∨ ∃ s ∈ seeds, WalkConn g n s t)) ∧
    (∀ e, e ∈ g'.edges ↔
        e ∈ g.edges ∧ e.1 ∈ g'.nodes ∧ e.2.1 ∈ g'.nodes) := by
  rw [filter_by_distance] at h
  split at h
  · exact Except.noConfusion h
  · rename_i rm hrm
    split at h
    · exact Except.noConfusion h
    · injection h with h
      subst h
      have hmem := vertices_to_remove_ok hwf hrm
      have hnotrm : ∀ n, n ∈ g.nodes →
          (n ∉ rm ↔ n ∈ seeds ∨ ∃ s ∈ seeds, WalkConn g n s t) := by
        intro n hn
        rw [hmem n]
        constructor
        · intro hx
          by_contra hcon
          push_neg at hcon
          exact hx ⟨hn, hcon.1, fun ⟨s, hs, hw⟩ => hcon.2 s hs hw⟩
        · rintro (hseed | hwalk)
          · rintro ⟨_, h2, _⟩
            exact h2 hseed
          · rintro ⟨_, _, h3⟩
            exact h3 hwalk
      have hnodes : ∀ n, n ∈ (g.nodes.filter fun n => !(rm.contains n)) ↔
          n ∈ g.nodes ∧ (n ∈ seeds ∨ ∃ s ∈ seeds, WalkConn g n s t) := by
        intro n
        rw [List.mem_filter]
        simp only [Bool.not_eq_true']
        rw [contains_eq_false_iff]
        constructor
        · rintro ⟨h1, h2⟩
          exact ⟨h1, (hnotrm n h1).mp h2⟩
        · rintro ⟨h1, h2⟩
          exact ⟨h1, (hnotrm n h1).mpr h2⟩
      refine ⟨hnodes, ?_⟩
      intro e
      rw [List.mem_filter]
      simp only [Bool.and_eq_true, Bool.not_eq_true']
      rw [contains_eq_false_iff, contains_eq_false_iff]
      constructor
      · rintro ⟨h1, h2, h3⟩
        have hm1 := (hwf.2.1 e h1).1
        have hm2 := (hwf.2.1 e h1).2
        exact ⟨h1, (hnodes e.1).mpr ⟨hm1, (hnotrm e.1 hm1).mp h2⟩,
          (hnodes e.2.1).mpr ⟨hm2, (hnotrm e.2.1 hm2).mp h3⟩⟩
      · rintro ⟨h1, h2, h3⟩
        obtain ⟨hm1, hk1⟩ := (hnodes e.1).mp h2
        obtain ⟨hm2, hk2⟩ := (hnodes e.2.1).mp h3
        exact ⟨h1, (hnotrm e.1 hm1).mpr hk1, (hnotrm e.2.1 hm2).mpr hk2⟩

theorem filter_by_distance_isOk_iff {g : Graph} (hwf : WF g)
    {seeds : List String} {t : Nat} (hs : ∀ s ∈ seeds, s ∈ g.nodes) :
    (∃ g', filter_by_distance g seeds t = .ok g') ↔
      ∃ n ∈ g.nodes, n ∈ seeds ∨ ∃ s ∈ seeds, WalkConn g n s t := by
  obtain ⟨rm, hrm⟩ := vertices_to_remove_isOk hs (List.Subset.refl g.nodes)
  have hmem := vertices_to_remove_ok hwf hrm
  constructor
  · rintro ⟨g', hg'⟩
    rw [filter_by_distance] at hg'
    split at hg'
    · exact Except.noConfusion hg'
    · rename_i rm2 hrm2
      rw [hrm] at hrm2
      injection hrm2 with hrm2
      subst hrm2
      split at hg'
      · exact Except.noConfusion hg'
      · rename_i hne
        have hne' : (g.nodes.filter fun n => !(rm.contains n)) ≠ [] := by
          simpa using hne
        obtain ⟨n, hn⟩ := List.exists_mem_of_ne_nil _ hne'
        have h1 := List.mem_filter.mp hn
        have hnn : n ∉ rm := by
          have h2 := h1.2
          simp only [Bool.not_eq_true'] at h2
          exact contains_eq_false_iff.mp h2
        refine ⟨n, h1.1, ?_⟩
        rw [hmem n] at hnn
        by_contra hcon
        push_neg at hcon
        exact hnn ⟨h1.1, hcon.1, fun ⟨s, hs', hw⟩ => hcon.2 s hs' hw⟩
  · rintro ⟨n, hn, hkeep⟩
    have hnn : n ∉ rm := by
      rw [hmem n]
      rintro ⟨_, h2, h3⟩
      rcases hkeep with hk | hk
      · exact h2 hk
      · exact h3 hk
    have hmemf : n ∈ g.nodes.filter fun n => !(rm.contains n) := by
      rw [List.mem_filter]
      refine ⟨hn, ?_⟩
      simp only [Bool.not_eq_true']
      exact contains_eq_false_iff.mpr hnn
    have hne : ¬((g.nodes.filter fun n => !(rm.contains n)).isEmpty = true) := by
      simp only [List.isEmpty_iff]
      intro hnil
      rw [hnil] at hmemf
      exact List.not_mem_nil n hmemf
    refine ⟨{ nodes := g.nodes.filter (fun n => !(rm.contains n)),
              edges := g.edges.filter (fun e =>
                !(rm.contains e.1) && !(rm.contains e.2.1)) }, ?_⟩
    rw [filter_by_distance, hrm]
    show (if (g.nodes.filter fun n => !(rm.contains n)).isEmpty = true then
        (Except.error PyError.pointlessConcept : Except PyError Graph)
      else .ok { nodes := g.nodes.filter (fun n => !(rm.contains n)),
                 edges := g.edges.filter (fun e =>
                   !(rm.contains e.1) && !(rm.contains e.2.1)) }) = _
    rw [if_neg hne]

/-! ## Claim C1 -/

/-- C1: for every well-formed graph `g`, seed list `seeds` and non-negative
threshold `t`, when `filter_by_distance` returns a graph it keeps every
node of the seed list present in `g` unconditionally, keeps a non-seed
node `n` iff the minimum hop distance from `n` to some seed is at most `t`
(so nodes unreachable from every seed are removed), and the result is the
induced subgraph of `g` on the kept node set: an edge of `g` survives iff
both endpoints are kept. -/
theorem filter_by_distance_keeps_iff_within_threshold :
    ∀ (g : Graph) (seeds : List String) (t : Nat) (g' : Graph), WF g →
      filter_by_distance g seeds t = .ok g' →
      (∀ n, n ∈ g'.nodes ↔
          n ∈ g.nodes ∧ (n ∈ seeds ∨ ∃ s ∈ seeds, WalkConn g n s t)) ∧
      (∀ e, e ∈ g'.edges ↔
          e ∈ g.edges ∧ e.1 ∈ g'.nodes ∧ e.2.1 ∈ g'.nodes) :=
  fun _ _ _ _ hwf h => filter_by_distance_ok hwf h

/-- Witness for C1 on the concrete path graph A - B - C with seed A and
threshold 1 (spec scenario 1: the result keeps A and B and drops C). -/
theorem filter_by_distance_keeps_iff_within_threshold_witness :
    WF gPath3 ∧
    filter_by_distance gPath3 ["A"] 1 =
      .ok (Graph.mk ["A", "B"] [("A", "B", [])]) ∧
    ((∀ n, n ∈ (Graph.mk ["A", "B"] [("A", "B", [])]).nodes ↔
        n ∈ gPath3.nodes ∧ (n ∈ ["A"] ∨ ∃ s ∈ ["A"], WalkConn gPath3 n s 1)) ∧
     (∀ e, e ∈ (Graph.mk ["A", "B"] [("A", "B", [])]).edges ↔
        e ∈ gPath3.edges ∧ e.1 ∈ (Graph.mk ["A", "B"] [("A", "B", [])]).nodes ∧
          e.2.1 ∈ (Graph.mk ["A", "B"] [("A", "B", [])]).nodes)) :=
  ⟨by decide, by rfl,
    filter_by_distance_keeps_iff_within_threshold gPath3 ["A"] 1
      (Graph.mk ["A", "B"] [("A", "B", [])]) (by decide) (by rfl)⟩

/-! ## Claim C8 -/

theorem min_distance_over_error {g : Graph} {protein : String} :
    ∀ {seeds : List String}, (∃ s ∈ seeds, s ∉ g.nodes) →
      min_distance_over g protein seeds = .error .nodeNotFound := by
  intro seeds
  induction seeds with
  | nil => rintro ⟨s, hs, _⟩; exact absurd hs (List.not_mem_nil s)
  | cons s rest ih =>
    rintro ⟨s', hs', habs⟩
    cases hhp : has_path g protein s with
    | error e =>
      have he : e = .nodeNotFound := by
        unfold has_path at hhp
        split at hhp
        · exact Except.noConfusion hhp
        · injection hhp with h
          exact h.symm
      rw [min_distance_over, hhp, he]
    | ok hp =>
      have hmem := has_path_ok hhp
      have hrest : ∃ x ∈ rest, x ∉ g.nodes := by
        rcases List.mem_cons.mp hs' with rfl | hm
        · exact absurd hmem.2.1 habs
        · exact ⟨s', hm, habs⟩
      rw [min_distance_over, hhp, ih hrest]

theorem vertices_to_remove_error {g : Graph} {seeds : List String} {t : Nat}
    (habs : ∃ s ∈ seeds, s ∉ g.nodes) :
    ∀ {l : List String}, (∃ p ∈ l, p ∉ seeds) →
      vertices_to_remove g seeds t l = .error .nodeNotFound := by
  intro l
  induction l with
  | nil => rintro ⟨p, hp, _⟩; exact absurd hp (List.not_mem_nil p)
  | cons p rest ih =>
    rintro ⟨p', hp', hpn⟩
    by_cases hps : seeds.contains p = true
    · have hrest : ∃ x ∈ rest, x ∉ seeds := by
        rcases List.mem_cons.mp hp' with rfl | hm
        · exact absurd (by simpa using hps) hpn
        · exact ⟨p', hm, hpn⟩
      rw [vertices_to_remove, if_pos hps]
      exact ih hrest
    · rw [vertices_to_remove, if_neg hps, min_distance_over_error habs]

theorem vertices_to_remove_all_seeds {g : Graph} {seeds : List String} {t : Nat} :
    ∀ {l : List String}, (∀ p ∈ l, p ∈ seeds) →
      vertices_to_remove g seeds t l = .ok [] := by
  intro l
  induction l with
  | nil => intro _; rfl
  | cons p rest ih =>
    intro hall
    have hps : seeds.contains p = true := by
      simpa using hall p (List.mem_cons_self p rest)
    rw [vertices_to_remove, if_pos hps]
    exact ih (fun x hx => hall x (List.mem_cons_of_mem p hx))

/-- C8 counterexample: on a graph with the single node A and an empty seed
list, every node is removed and `filter_by_distance` raises (the
`nx.is_connected` observation on the null graph), instead of returning the
empty graph as a valid result. -/
theorem filter_by_distance_empty_result_errors :
    filter_by_distance gSolo [] 2 = .error .pointlessConcept := by rfl

/-- C8 amended: on a well-formed graph, `filter_by_distance` succeeds
exactly when (i) every seed occurs in the graph or every node of the graph
is a seed — otherwise some non-seed node's distance computation hits an
absent seed and raises `NodeNotFound` — and (ii) the kept node set is
nonempty: some node is a seed or lies within the threshold of a seed.
Connectivity of the result is never required (success does not depend on
it); when the kept node set is empty the `nx.is_connected` observation on
the null graph raises an error instead of returning an empty graph. -/
theorem filter_by_distance_success_characterization :
    ∀ (g : Graph) (seeds : List String) (t : Nat), WF g →
      ((∃ g', filter_by_distance g seeds t = .ok g') ↔
        (((∀ s ∈ seeds, s ∈ g.nodes) ∨ (∀ n ∈ g.nodes, n ∈ seeds)) ∧
          ∃ n ∈ g.nodes, n ∈ seeds ∨ ∃ s ∈ seeds, WalkConn g n s t)) := by
  intro g seeds t hwf
  constructor
  · rintro ⟨g', hg'⟩
    have hcase : (∀ s ∈ seeds, s ∈ g.nodes) ∨ (∀ n ∈ g.nodes, n ∈ seeds) := by
      by_contra hcon
      push_neg at hcon
      obtain ⟨⟨s, hs, hsa⟩, n, hn, hns⟩ := hcon
      rw [filter_by_distance] at hg'
      split at hg'
      · exact Except.noConfusion hg'
      · rename_i rm hrm
        rw [vertices_to_remove_error ⟨s, hs, hsa⟩ ⟨n, hn, hns⟩] at hrm
        exact Except.noConfusion hrm
    refine ⟨hcase, ?_⟩
    have hnodes := (filter_by_distance_ok hwf hg').1
    obtain ⟨n, hn⟩ : ∃ n, n ∈ g'.nodes := by
      rw [filter_by_distance] at hg'
      split at hg'
      · exact Except.noConfusion hg'
      · rename_i rm hrm
        split at hg'
        · exact Except.noConfusion hg'
        · rename_i hne
          injection hg' with hg'
          subst hg'
          have hne' : (g.nodes.filter fun x => !(rm.contains x)) ≠ [] := by
            simpa using hne
          obtain ⟨n, hn⟩ := List.exists_mem_of_ne_nil _ hne'
          exact ⟨n, hn⟩
    obtain ⟨hgn, hk⟩ := (hnodes n).mp hn
    exact ⟨n, hgn, hk⟩
  · rintro ⟨hcase, n, hn, hk⟩
    by_cases hs : ∀ s ∈ seeds, s ∈ g.nodes
    · exact (filter_by_distance_isOk_iff hwf hs).mpr ⟨n, hn, hk⟩
    · have hall : ∀ m ∈ g.nodes, m ∈ seeds := by
        rcases hcase with h | h
        · exact absurd h hs
        · exact h
      have hrm : vertices_to_remove g seeds t g.nodes = .ok [] :=
        vertices_to_remove_all_seeds hall
      have hmemf :
          n ∈ g.nodes.filter fun x => !(([] : List String).contains x) := by
        rw [List.mem_filter]
        exact ⟨hn, rfl⟩
      have hne : ¬((g.nodes.filter
          fun x => !(([] : List String).contains x)).isEmpty = true) := by
        simp only [List.isEmpty_iff]
        intro hnil
        rw [hnil] at hmemf
        exact List.not_mem_nil n hmemf
      refine ⟨{ nodes := g.nodes.filter (fun x => !(([] : List String).contains x)),
                edges := g.edges.filter (fun e =>
                  !(([] : List String).contains e.1) &&
                    !(([] : List String).contains e.2.1)) }, ?_⟩
      rw [filter_by_distance, hrm]
      show (if (g.nodes.filter
            fun x => !(([] : List String).contains x)).isEmpty = true then
          (Except.error PyError.pointlessConcept : Except PyError Graph)
        else .ok { nodes := g.nodes.filter
                     (fun x => !(([] : List String).contains x)),
                   edges := g.edges.filter (fun e =>
                     !(([] : List String).contains e.1) &&
                       !(([] : List String).contains e.2.1)) }) = _
      rw [if_neg hne]

/-- Witness for C8 (amended) on the disconnected graph A - B, C - D with
seeds A and C: both seeds are present and the kept set is nonempty, so
filtering succeeds even though the result is disconnected. -/
theorem filter_by_distance_success_characterization_witness :
    ∃ g', filter_by_distance gDisc ["A", "C"] 1 = .ok g' :=
  (filter_by_distance_success_characterization gDisc ["A", "C"] 1
    (by decide)).mpr ⟨Or.inl (by decide), "A", by decide, Or.inl (by decide)⟩

/-! ## Lemmas about `add_node` / `add_edge` and graph combination -/

theorem addNode_edges (g : Graph) (u : String) : (addNode g u).edges = g.edges := by
  unfold addNode
  split <;> rfl

theorem mem_addNode_nodes {g : Graph} {u x : String} :
    x ∈ (addNode g u).nodes ↔ x = u ∨ x ∈ g.nodes := by
  unfold addNode
  split
  · rename_i hmem
    rw [hasNode_iff] at hmem
    constructor
    · exact Or.inr
    · rintro (rfl | hx)
      · exact hmem
      · exact hx
  · simp [or_comm]

theorem addNode_eq_of_mem {g : Graph} {u : String} (h : u ∈ g.nodes) :
    addNode g u = g := by
  unfold addNode
  rw [if_pos (hasNode_iff.mpr h)]

/-- The two endpoint components of every stored edge survive `updateEdge`. -/
theorem updateEdge_any (u v x y : String) (a : AttrList) :
    ∀ es : List (String × String × AttrList),
      (updateEdge u v a es).any (edgeMatches x y) = es.any (edgeMatches x y) := by
  intro es
  induction es with
  | nil => rfl
  | cons e rest ih =>
    rw [updateEdge]
    split
    · rfl
    · simp only [List.any_cons, ih]

/-- Unordered-pair equality of `(u, v)` and `(x, y)`. -/
theorem edgeMatches_pair {u v x y : String} {a : AttrList} :
    edgeMatches x y (u, v, a) = true ↔ (u = x ∧ v = y) ∨ (u = y ∧ v = x) := by
  simp [edgeMatches]

/-- Two queries with the same unordered pair agree on every stored edge. -/
theorem edgeMatches_congr {u v x y : String}
    (h : (u = x ∧ v = y) ∨ (u = y ∧ v = x)) (e : String × String × AttrList) :
    edgeMatches x y e = edgeMatches u v e := by
  rcases h with ⟨rfl, rfl⟩ | ⟨rfl, rfl⟩
  · rfl
  · simp only [edgeMatches]
    rw [Bool.or_comm]

theorem hasEdge_congr {g : Graph} {u v x y : String}
    (h : (u = x ∧ v = y) ∨ (u = y ∧ v = x)) :
    hasEdge g x y = hasEdge g u v := by
  unfold hasEdge
  congr 1
  funext e
  exact edgeMatches_congr h e

theorem mem_addEdge_nodes {g : Graph} {u v x : String} {a : AttrList} :
    x ∈ (addEdge g u v a).nodes ↔ x = u ∨ x = v ∨ x ∈ g.nodes := by
  unfold addEdge
  split <;>
  · show x ∈ (addNode (addNode g u) v).nodes ↔ _
    simp only [mem_addNode_nodes]
    tauto

theorem addEdge_nodes_of_mem {g : Graph} {u v : String} {a : AttrList}
    (hu : u ∈ g.nodes) (hv : v ∈ g.nodes) :
    (addEdge g u v a).nodes = g.nodes := by
  unfold addEdge
  rw [addNode_eq_of_mem hu, addNode_eq_of_mem hv]
  split <;> rfl

theorem hasEdge_addEdge (g : Graph) (u v x y : String) (a : AttrList) :
    hasEdge (addEdge g u v a) x y =
      (edgeMatches x y (u, v, a) || hasEdge g x y) := by
  unfold addEdge
  split
  · rename_i hpresent
    show (updateEdge u v a g.edges).any (edgeMatches x y) = _
    rw [updateEdge_any]
    by_cases hm : edgeMatches x y (u, v, a) = true
    · rw [hm, Bool.true_or]
      show hasEdge g x y = true
      rw [hasEdge_congr (edgeMatches_pair.mp hm)]
      exact hpresent
    · rw [Bool.not_eq_true] at hm
      rw [hm, Bool.false_or]
      rfl
  · show (g.edges ++ [(u, v, a)]).any (edgeMatches x y) = _
    rw [List.any_append]
    simp only [List.any_cons, List.any_nil, Bool.or_false]
    rw [Bool.or_comm]
    rfl

theorem addEdge_edges_of_not_present {g : Graph} {u v : String} {a : AttrList}
    (h : hasEdge g u v = false) :
    (addEdge g u v a).edges = g.edges ++ [(u, v, a)] := by
  unfold addEdge
  rw [if_neg (by rw [h]; exact Bool.false_ne_true)]

theorem updateEdge_find?_match {u v x y : String} {a : AttrList}
    (hm : edgeMatches x y (u, v, a) = true) :
    ∀ es : List (String × String × AttrList),
      (updateEdge u v a es).find? (edgeMatches x y) =
        (es.find? (edgeMatches x y)).map
          (fun e => (e.1, e.2.1, attrsUpdate e.2.2 a)) := by
  intro es
  induction es with
  | nil => rfl
  | cons e rest ih =>
    rw [updateEdge]
    by_cases he : edgeMatches u v e = true
    · rw [if_pos he]
      have hexy : edgeMatches x y e = true := by
        rw [edgeMatches_congr (edgeMatches_pair.mp hm) e]
        exact he
      have h1 : edgeMatches x y (e.1, e.2.1, attrsUpdate e.2.2 a) = true := hexy
      rw [List.find?_cons_of_pos _ h1, List.find?_cons_of_pos _ hexy]
      rfl
    · rw [if_neg he]
      have hexy : ¬(edgeMatches x y e = true) := by
        rw [edgeMatches_congr (edgeMatches_pair.mp hm) e]
        exact he
      rw [List.find?_cons_of_neg _ hexy, List.find?_cons_of_neg _ hexy, ih]

theorem updateEdge_find?_of_not_match {u v x y : String} {a : AttrList}
    (hm : edgeMatches x y (u, v, a) = false) :
    ∀ es : List (String × String × AttrList),
      (updateEdge u v a es).find? (edgeMatches x y) =
        es.find? (edgeMatches x y) := by
  intro es
  induction es with
  | nil => rfl
  | cons e rest ih =>
    rw [updateEdge]
    by_cases he : edgeMatches u v e = true
    · rw [if_pos he]
      have hexy : ¬(edgeMatches x y e = true) := by
        intro hxy
        have h1 := edgeMatches_iff.mp he
        have h2 := edgeMatches_iff.mp hxy
        have hmm : edgeMatches x y (u, v, a) = true := by
          rw [edgeMatches_pair]
          rcases h1 with ⟨hu1, hv1⟩ | ⟨hu1, hv1⟩ <;>
            rcases h2 with ⟨hx1, hy1⟩ | ⟨hx1, hy1⟩
          · exact Or.inl ⟨hu1.symm.trans hx1, hv1.symm.trans hy1⟩
          · exact Or.inr ⟨hu1.symm.trans hx1, hv1.symm.trans hy1⟩
          · exact Or.inr ⟨hv1.symm.trans hy1, hu1.symm.trans hx1⟩
          · exact Or.inl ⟨hv1.symm.trans hy1, hu1.symm.trans hx1⟩
        rw [hmm] at hm
        exact Bool.noConfusion hm
      have h1' : ¬(edgeMatches x y (e.1, e.2.1, attrsUpdate e.2.2 a) = true) := hexy
      rw [List.find?_cons_of_neg _ h1', List.find?_cons_of_neg _ hexy]
    · rw [if_neg he]
      by_cases hxy : edgeMatches x y e = true
      · rw [List.find?_cons_of_pos _ hxy, List.find?_cons_of_pos _ hxy]
      · rw [List.find?_cons_of_neg _ hxy, List.find?_cons_of_neg _ hxy, ih]

theorem hasEdge_find?_isSome {g : Graph} {x y : String} :
    hasEdge g x y = true ↔ (g.edges.find? (edgeMatches x y)).isSome := by
  rw [hasEdge_iff, List.find?_isSome]

theorem find?_eq_none_of_hasEdge_false {g : Graph} {x y : String}
    (h : hasEdge g x y = false) :
    g.edges.find? (edgeMatches x y) = none := by
  rw [List.find?_eq_none]
  intro e he hm
  have : hasEdge g x y = true := hasEdge_iff.mpr ⟨e, he, hm⟩
  rw [h] at this
  exact Bool.noConfusion this

theorem addEdge_attrs_of_not_match {g : Graph} {u v x y : String} {a : AttrList}
    (hm : edgeMatches x y (u, v, a) = false) :
    edgeAttrs? (addEdge g u v a) x y = edgeAttrs? g x y := by
  unfold addEdge
  split
  · show ((updateEdge u v a g.edges).find? (edgeMatches x y)).map _ = _
    rw [updateEdge_find?_of_not_match hm]
    rfl
  · show (((g.edges ++ [(u, v, a)]).find? (edgeMatches x y)).map _ : Option AttrList) = _
    rw [List.find?_append]
    have h2 : ([(u, v, a)].find? (edgeMatches x y)) = none := by
      rw [List.find?_cons_of_neg]
      · rfl
      · rw [hm]
        exact Bool.false_ne_true
    rw [h2, Option.or_none]
    rfl

theorem addEdge_attrs_of_match {g : Graph} {u v x y : String} {a : AttrList}
    (hm : edgeMatches x y (u, v, a) = true) :
    edgeAttrs? (addEdge g u v a) x y =
      some (match edgeAttrs? g x y with
            | some old => attrsUpdate old a
            | none => a) := by
  unfold addEdge
  split
  · rename_i hpresent
    have hpxy : hasEdge g x y = true := by
      rw [hasEdge_congr (edgeMatches_pair.mp hm)]
      exact hpresent
    obtain ⟨e0, he0⟩ :=
      Option.isSome_iff_exists.mp (hasEdge_find?_isSome.mp hpxy)
    show ((updateEdge u v a g.edges).find? (edgeMatches x y)).map _ = _
    rw [updateEdge_find?_match hm, he0]
    have hattrs : edgeAttrs? g x y = some e0.2.2 := by
      unfold edgeAttrs?
      rw [he0]
      rfl
    rw [hattrs]
    rfl
  · rename_i habsent
    have habs : hasEdge g u v = false := by
      cases hb : hasEdge g u v with
      | false => rfl
      | true => exact absurd hb habsent
    have hpxy : hasEdge g x y = false := by
      rw [hasEdge_congr (edgeMatches_pair.mp hm)]
      exact habs
    have hfx := find?_eq_none_of_hasEdge_false hpxy
    have hattrs : edgeAttrs? g x y = none := by
      unfold edgeAttrs?
      rw [hfx]
      rfl
    show (((g.edges ++ [(u, v, a)]).find? (edgeMatches x y)).map _ : Option AttrList) = _
    rw [List.find?_append, hfx, Option.none_or, List.find?_cons_of_pos _ hm, hattrs]
    rfl

theorem addGraphNodes_edges : ∀ (ns : List String) (c : Graph),
    (addGraphNodes c ns).edges = c.edges := by
  intro ns
  induction ns with
  | nil => intro c; rfl
  | cons n rest ih =>
    intro c
    show (addGraphNodes (addNode c n) rest).edges = _
    rw [ih, addNode_edges]

theorem mem_addGraphNodes_nodes : ∀ (ns : List String) (c : Graph) (x : String),
    x ∈ (addGraphNodes c ns).nodes ↔ x ∈ c.nodes ∨ x ∈ ns := by
  intro ns
  induction ns with
  | nil => intro c x; simp [addGraphNodes]
  | cons n rest ih =>
    intro c x
    show x ∈ (addGraphNodes (addNode c n) rest).nodes ↔ _
    rw [ih]
    rw [mem_addNode_nodes]
    simp only [List.mem_cons]
    tauto

theorem hasEdge_addGraphNodes (c : Graph) (ns : List String) (x y : String) :
    hasEdge (addGraphNodes c ns) x y = hasEdge c x y := by
  unfold hasEdge
  rw [addGraphNodes_edges]

theorem edgeAttrs?_addGraphNodes (c : Graph) (ns : List String) (x y : String) :
    edgeAttrs? (addGraphNodes c ns) x y = edgeAttrs? c x y := by
  unfold edgeAttrs?
  rw [addGraphNodes_edges]

theorem hasEdge_addGraphEdgesGuarded :
    ∀ (es : List (String × String × AttrList)) (c : Graph) (x y : String),
      hasEdge (addGraphEdgesGuarded c es) x y =
        (hasEdge c x y || es.any (edgeMatches x y)) := by
  intro es
  induction es with
  | nil => intro c x y; simp [addGraphEdgesGuarded]
  | cons e rest ih =>
    intro c x y
    show hasEdge (addGraphEdgesGuarded
      (if hasEdge c e.1 e.2.1 then c else addEdge c e.1 e.2.1 e.2.2) rest) x y = _
    rw [ih, List.any_cons]
    by_cases hb : hasEdge c e.1 e.2.1 = true
    · rw [if_pos hb]
      by_cases hme : edgeMatches x y e = true
      · have h2 : hasEdge c x y = true := by
          rw [hasEdge_congr (edgeMatches_iff.mp hme)]
          exact hb
        rw [h2, hme]
        rfl
      · rw [Bool.not_eq_true] at hme
        rw [hme, Bool.false_or]
    · rw [if_neg hb, hasEdge_addEdge]
      rw [show edgeMatches x y (e.1, e.2.1, e.2.2) = edgeMatches x y e from rfl]
      cases edgeMatches x y e <;> cases hasEdge c x y <;> simp

theorem addGraphEdgesGuarded_nodes :
    ∀ (es : List (String × String × AttrList)) (c : Graph),
      (∀ e ∈ es, e.1 ∈ c.nodes ∧ e.2.1 ∈ c.nodes) →
      (addGraphEdgesGuarded c es).nodes = c.nodes := by
  intro es
  induction es with
  | nil => intro c _; rfl
  | cons e rest ih =>
    intro c hend
    show (addGraphEdgesGuarded
      (if hasEdge c e.1 e.2.1 then c else addEdge c e.1 e.2.1 e.2.2) rest).nodes = _
    by_cases hb : hasEdge c e.1 e.2.1 = true
    · rw [if_pos hb]
      exact ih c (fun e' he' => hend e' (List.mem_cons_of_mem e he'))
    · rw [if_neg hb]
      have h1 := hend e (List.mem_cons_self e rest)
      have hnodes := addEdge_nodes_of_mem (a := e.2.2) h1.1 h1.2
      rw [ih _ (fun e' he' => by
        rw [hnodes]
        exact hend e' (List.mem_cons_of_mem e he'))]
      exact hnodes

theorem edgeAttrs?_addGraphEdgesGuarded :
    ∀ (es : List (String × String × AttrList)) (c : Graph) (x y : String),
      edgeAttrs? (addGraphEdgesGuarded c es) x y =
        (edgeAttrs? c x y).or
          ((es.find? (edgeMatches x y)).map (fun e => e.2.2)) := by
  intro es
  induction es with
  | nil =>
    intro c x y
    show edgeAttrs? c x y = _
    simp [Option.or_none]
  | cons e rest ih =>
    intro c x y
    show edgeAttrs? (addGraphEdgesGuarded
      (if hasEdge c e.1 e.2.1 then c else addEdge c e.1 e.2.1 e.2.2) rest) x y = _
    rw [ih]
    by_cases hb : hasEdge c e.1 e.2.1 = true
    · rw [if_pos hb]
      by_cases hme : edgeMatches x y e = true
      · have h2 : hasEdge c x y = true := by
          rw [hasEdge_congr (edgeMatches_iff.mp hme)]
          exact hb
        obtain ⟨e0, he0⟩ :=
          Option.isSome_iff_exists.mp (hasEdge_find?_isSome.mp h2)
        have hattrs : edgeAttrs? c x y = some e0.2.2 := by
          unfold edgeAttrs?
          rw [he0]
          rfl
        rw [hattrs]
        rfl
      · rw [List.find?_cons_of_neg _ hme]
    · rw [if_neg hb]
      by_cases hme : edgeMatches x y e = true
      · have hme' : edgeMatches x y (e.1, e.2.1, e.2.2) = true := hme
        rw [addEdge_attrs_of_match hme']
        have hcxy : hasEdge c x y = false := by
          rw [hasEdge_congr (edgeMatches_iff.mp hme)]
          cases hbb : hasEdge c e.1 e.2.1 with
          | false => rfl
          | true => exact absurd hbb hb
        have hattrs : edgeAttrs? c x y = none := by
          unfold edgeAttrs?
          rw [find?_eq_none_of_hasEdge_false hcxy]
          rfl
        rw [hattrs, List.find?_cons_of_pos _ hme]
        rfl
      · have hme' : edgeMatches x y (e.1, e.2.1, e.2.2) = false := by
          cases hbb : edgeMatches x y e with
          | false => rfl
          | true => exact absurd hbb hme
        rw [addEdge_attrs_of_not_match hme', List.find?_cons_of_neg _ hme]

theorem hasEdge_addGraphEdges :
    ∀ (es : List (String × String × AttrList)) (c : Graph) (x y : String),
      hasEdge (addGraphEdges c es) x y =
        (hasEdge c x y || es.any (edgeMatches x y)) := by
  intro es
  induction es with
  | nil => intro c x y; simp [addGraphEdges]
  | cons e rest ih =>
    intro c x y
    show hasEdge (addGraphEdges (addEdge c e.1 e.2.1 e.2.2) rest) x y = _
    rw [ih, List.any_cons, hasEdge_addEdge]
    rw [show edgeMatches x y (e.1, e.2.1, e.2.2) = edgeMatches x y e from rfl]
    cases edgeMatches x y e <;> cases hasEdge c x y <;> simp

theorem addGraphEdges_nodes :
    ∀ (es : List (String × String × AttrList)) (c : Graph),
      (∀ e ∈ es, e.1 ∈ c.nodes ∧ e.2.1 ∈ c.nodes) →
      (addGraphEdges c es).nodes = c.nodes := by
  intro es
  induction es with
  | nil => intro c _; rfl
  | cons e rest ih =>
    intro c hend
    show (addGraphEdges (addEdge c e.1 e.2.1 e.2.2) rest).nodes = _
    have h1 := hend e (List.mem_cons_self e rest)
    have hnodes := addEdge_nodes_of_mem (a := e.2.2) h1.1 h1.2
    rw [ih _ (fun e' he' => by
      rw [hnodes]
      exact hend e' (List.mem_cons_of_mem e he'))]
    exact hnodes

theorem edgeAttrs?_addGraphEdges :
    ∀ (es : List (String × String × AttrList)),
      es.Pairwise (fun e1 e2 =>
        ¬((e1.1 = e2.1 ∧ e1.2.1 = e2.2.1) ∨ (e1.1 = e2.2.1 ∧ e1.2.1 = e2.1))) →
      ∀ (c : Graph) (x y : String),
        edgeAttrs? (addGraphEdges c es) x y =
          match es.find? (edgeMatches x y) with
          | none => edgeAttrs? c x y
          | some e => some (match edgeAttrs? c x y with
                            | some old => attrsUpdate old e.2.2
                            | none => e.2.2) := by
  intro es
  induction es with
  | nil => intro _ c x y; rfl
  | cons e rest ih =>
    intro hpw c x y
    obtain ⟨hhead, htail⟩ := List.pairwise_cons.mp hpw
    show edgeAttrs? (addGraphEdges (addEdge c e.1 e.2.1 e.2.2) rest) x y = _
    rw [ih htail]
    by_cases hme : edgeMatches x y e = true
    · have hrest_none : rest.find? (edgeMatches x y) = none := by
        rw [List.find?_eq_none]
        intro e' he' hm'
        have h1 := edgeMatches_iff.mp hme
        have h2 := edgeMatches_iff.mp hm'
        apply hhead e' he'
        rcases h1 with ⟨ha, hb2⟩ | ⟨ha, hb2⟩ <;>
          rcases h2 with ⟨hc2, hd⟩ | ⟨hc2, hd⟩
        · exact Or.inl ⟨ha.trans hc2.symm, hb2.trans hd.symm⟩
        · exact Or.inr ⟨ha.trans hd.symm, hb2.trans hc2.symm⟩
        · exact Or.inr ⟨ha.trans hd.symm, hb2.trans hc2.symm⟩
        · exact Or.inl ⟨ha.trans hc2.symm, hb2.trans hd.symm⟩
      rw [hrest_none]
      have hme' : edgeMatches x y (e.1, e.2.1, e.2.2) = true := hme
      rw [List.find?_cons_of_pos _ hme]
      exact addEdge_attrs_of_match hme'
    · rw [List.find?_cons_of_neg _ hme]
      have hme' : edgeMatches x y (e.1, e.2.1, e.2.2) = false := by
        cases hbb : edgeMatches x y e with
        | false => rfl
        | true => exact absurd hbb hme
      cases hf : rest.find? (edgeMatches x y) with
      | none => exact addEdge_attrs_of_not_match hme'
      | some e2 => rw [addEdge_attrs_of_not_match hme']

theorem combineStep_nodes {g : Graph}
    (hend : ∀ e ∈ g.edges, e.1 ∈ g.nodes ∧ e.2.1 ∈ g.nodes)
    (c : Graph) (x : String) :
    x ∈ (addGraphEdgesGuarded (addGraphNodes c g.nodes) g.edges).nodes ↔
      x ∈ c.nodes ∨ x ∈ g.nodes := by
  rw [addGraphEdgesGuarded_nodes _ _ (fun e he =>
    ⟨(mem_addGraphNodes_nodes _ _ _).mpr (Or.inr (hend e he).1),
     (mem_addGraphNodes_nodes _ _ _).mpr (Or.inr (hend e he).2)⟩)]
  exact mem_addGraphNodes_nodes _ _ _

theorem combineStep_hasEdge (c g : Graph) (x y : String) :
    hasEdge (addGraphEdgesGuarded (addGraphNodes c g.nodes) g.edges) x y =
      (hasEdge c x y || hasEdge g x y) := by
  rw [hasEdge_addGraphEdgesGuarded, hasEdge_addGraphNodes]
  rfl

theorem combineStep_attrs (c g : Graph) (x y : String) :
    edgeAttrs? (addGraphEdgesGuarded (addGraphNodes c g.nodes) g.edges) x y =
      (edgeAttrs? c x y).or (edgeAttrs? g x y) := by
  rw [edgeAttrs?_addGraphEdgesGuarded, edgeAttrs?_addGraphNodes]
  rfl

theorem composeStep_nodes {g : Graph}
    (hend : ∀ e ∈ g.edges, e.1 ∈ g.nodes ∧ e.2.1 ∈ g.nodes)
    (c : Graph) (x : String) :
    x ∈ (addGraphEdges (addGraphNodes c g.nodes) g.edges).nodes ↔
      x ∈ c.nodes ∨ x ∈ g.nodes := by
  rw [addGraphEdges_nodes _ _ (fun e he =>
    ⟨(mem_addGraphNodes_nodes _ _ _).mpr (Or.inr (hend e he).1),
     (mem_addGraphNodes_nodes _ _ _).mpr (Or.inr (hend e he).2)⟩)]
  exact mem_addGraphNodes_nodes _ _ _

theorem composeStep_hasEdge (c g : Graph) (x y : String) :
    hasEdge (addGraphEdges (addGraphNodes c g.nodes) g.edges) x y =
      (hasEdge c x y || hasEdge g x y) := by
  rw [hasEdge_addGraphEdges, hasEdge_addGraphNodes]
  rfl

theorem composeStep_attrs {g : Graph}
    (hpw : g.edges.Pairwise (fun e1 e2 =>
      ¬((e1.1 = e2.1 ∧ e1.2.1 = e2.2.1) ∨ (e1.1 = e2.2.1 ∧ e1.2.1 = e2.1))))
    (c : Graph) (x y : String) :
    edgeAttrs? (addGraphEdges (addGraphNodes c g.nodes) g.edges) x y =
      match edgeAttrs? g x y with
      | none => edgeAttrs? c x y
      | some ae => some (match edgeAttrs? c x y with
                         | some old => attrsUpdate old ae
                         | none => ae) := by
  rw [edgeAttrs?_addGraphEdges _ hpw, edgeAttrs?_addGraphNodes]
  cases hf : g.edges.find? (edgeMatches x y) with
  | none =>
    have hg : edgeAttrs? g x y = none := by
      unfold edgeAttrs?
      rw [hf]
      rfl
    rw [hg]
  | some e =>
    have hg : edgeAttrs? g x y = some e.2.2 := by
      unfold edgeAttrs?
      rw [hf]
      rfl
    rw [hg]

theorem combine_graphs_pair_attrs (g1 g2 : Graph) (a b : String) :
    edgeAttrs? (combine_graphs [g1, g2]) a b =
      (edgeAttrs? g1 a b).or (edgeAttrs? g2 a b) := by
  show edgeAttrs? (addGraphEdgesGuarded (addGraphNodes
    (addGraphEdgesGuarded (addGraphNodes nxEmpty g1.nodes) g1.edges)
    g2.nodes) g2.edges) a b = _
  rw [combineStep_attrs, combineStep_attrs]
  rw [show edgeAttrs? nxEmpty a b = none from rfl, Option.none_or]

theorem combine_graphs_pair_hasEdge (g1 g2 : Graph) (x y : String) :
    hasEdge (combine_graphs [g1, g2]) x y =
      (hasEdge g1 x y || hasEdge g2 x y) := by
  show hasEdge (addGraphEdgesGuarded (addGraphNodes
    (addGraphEdgesGuarded (addGraphNodes nxEmpty g1.nodes) g1.edges)
    g2.nodes) g2.edges) x y = _
  rw [combineStep_hasEdge, combineStep_hasEdge]
  rw [show hasEdge nxEmpty x y = false from rfl, Bool.false_or]

theorem combine_graphs_pair_nodes {g1 g2 : Graph}
    (h1 : ∀ e ∈ g1.edges, e.1 ∈ g1.nodes ∧ e.2.1 ∈ g1.nodes)
    (h2 : ∀ e ∈ g2.edges, e.1 ∈ g2.nodes ∧ e.2.1 ∈ g2.nodes) (x : String) :
    x ∈ (combine_graphs [g1, g2]).nodes ↔ x ∈ g1.nodes ∨ x ∈ g2.nodes := by
  show x ∈ (addGraphEdgesGuarded (addGraphNodes
    (addGraphEdgesGuarded (addGraphNodes nxEmpty g1.nodes) g1.edges)
    g2.nodes) g2.edges).nodes ↔ _
  rw [combineStep_nodes h2, combineStep_nodes h1]
  show (x ∈ ([] : List String) ∨ _) ∨ _ ↔ _
  simp only [List.not_mem_nil, false_or]

theorem nxCompose_pair_hasEdge (g1 g2 : Graph) (x y : String) :
    hasEdge (nxCompose g1 g2) x y = (hasEdge g1 x y || hasEdge g2 x y) := by
  show hasEdge (addGraphEdges (addGraphNodes
    (addGraphEdges (addGraphNodes nxEmpty g1.nodes) g1.edges)
    g2.nodes) g2.edges) x y = _
  rw [composeStep_hasEdge, composeStep_hasEdge]
  rw [show hasEdge nxEmpty x y = false from rfl, Bool.false_or]

theorem nxCompose_pair_nodes {g1 g2 : Graph}
    (h1 : ∀ e ∈ g1.edges, e.1 ∈ g1.nodes ∧ e.2.1 ∈ g1.nodes)
    (h2 : ∀ e ∈ g2.edges, e.1 ∈ g2.nodes ∧ e.2.1 ∈ g2.nodes) (x : String) :
    x ∈ (nxCompose g1 g2).nodes ↔ x ∈ g1.nodes ∨ x ∈ g2.nodes := by
  show x ∈ (addGraphEdges (addGraphNodes
    (addGraphEdges (addGraphNodes nxEmpty g1.nodes) g1.edges)
    g2.nodes) g2.edges).nodes ↔ _
  rw [composeStep_nodes h2, composeStep_nodes h1]
  show (x ∈ ([] : List String) ∨ _) ∨ _ ↔ _
  simp only [List.not_mem_nil, false_or]

theorem nxCompose_pair_attrs {g1 g2 : Graph}
    (hpw1 : g1.edges.Pairwise (fun e1 e2 =>
      ¬((e1.1 = e2.1 ∧ e1.2.1 = e2.2.1) ∨ (e1.1 = e2.2.1 ∧ e1.2.1 = e2.1))))
    (hpw2 : g2.edges.Pairwise (fun e1 e2 =>
      ¬((e1.1 = e2.1 ∧ e1.2.1 = e2.2.1) ∨ (e1.1 = e2.2.1 ∧ e1.2.1 = e2.1))))
    {a b : String} {A1 A2 : AttrList}
    (ha1 : edgeAttrs? g1 a b = some A1) (ha2 : edgeAttrs? g2 a b = some A2) :
    edgeAttrs? (nxCompose g1 g2) a b = some (attrsUpdate A1 A2) := by
  show edgeAttrs? (addGraphEdges (addGraphNodes
    (addGraphEdges (addGraphNodes nxEmpty g1.nodes) g1.edges)
    g2.nodes) g2.edges) a b = _
  rw [composeStep_attrs hpw2, ha2]
  rw [composeStep_attrs hpw1, ha1]
  rfl

/-! ## Claim C3 -/

/-- C3 counterexample: the reduce/compose-based `combine_graphs` of
`string_db_combined_graph.py` retains the attributes of the LAST graph in
the input order for a shared edge, not the first: combining `gAttr1`
(score 1) with `gAttr2` (score 2), in this order, yields score 2. -/
theorem combine_graphs_reduce_last_graph_wins :
    combine_graphs_reduce [gAttr1, gAttr2] =
      .ok (Graph.mk ["A", "B"] [("A", "B", [("score", "2")])]) ∧
    edgeAttrs? gAttr1 "A" "B" = some [("score", "1")] ∧
    edgeAttrs? gAttr2 "A" "B" = some [("score", "2")] ∧
    edgeAttrs? (Graph.mk ["A", "B"] [("A", "B", [("score", "2")])]) "A" "B" ≠
      edgeAttrs? gAttr1 "A" "B" :=
  ⟨rfl, rfl, rfl, by decide⟩

/-- C3 amended: for well-formed graphs `g1`, `g2`, the `add_paralogs.py`
`combine_graphs` is first-graph-wins for edge attributes; the
`string_db_combined_graph.py` `combine_graphs` (built on `nx.compose`)
merges the attribute mappings of a shared edge key by key with the later
graph's values taking precedence; and for both implementations the
resulting node set and edge-existence topology are independent of the
input order of the two graphs. -/
theorem combine_graphs_attribute_policy :
    ∀ (g1 g2 : Graph), WF g1 → WF g2 →
      (∀ a b, hasEdge g1 a b = true →
        edgeAttrs? (combine_graphs [g1, g2]) a b = edgeAttrs? g1 a b) ∧
      (∀ a b A1 A2, edgeAttrs? g1 a b = some A1 → edgeAttrs? g2 a b = some A2 →
        ∃ h, combine_graphs_reduce [g1, g2] = .ok h ∧
          edgeAttrs? h a b = some (attrsUpdate A1 A2)) ∧
      (∀ x, x ∈ (combine_graphs [g1, g2]).nodes ↔
        x ∈ (combine_graphs [g2, g1]).nodes) ∧
      (∀ x y, hasEdge (combine_graphs [g1, g2]) x y =
        hasEdge (combine_graphs [g2, g1]) x y) ∧
      (∃ h12 h21, combine_graphs_reduce [g1, g2] = .ok h12 ∧
        combine_graphs_reduce [g2, g1] = .ok h21 ∧
        (∀ x, x ∈ h12.nodes ↔ x ∈ h21.nodes) ∧
        (∀ x y, hasEdge h12 x y = hasEdge h21 x y)) := by
  intro g1 g2 h1 h2
  refine ⟨?_, ?_, ?_, ?_, ?_⟩
  · intro a b hab
    rw [combine_graphs_pair_attrs]
    obtain ⟨e0, he0⟩ :=
      Option.isSome_iff_exists.mp (hasEdge_find?_isSome.mp hab)
    have hA : edgeAttrs? g1 a b = some e0.2.2 := by
      unfold edgeAttrs?
      rw [he0]
      rfl
    rw [hA]
    rfl
  · intro a b A1 A2 ha1 ha2
    exact ⟨nxCompose g1 g2, rfl,
      nxCompose_pair_attrs h1.2.2.2 h2.2.2.2 ha1 ha2⟩
  · intro x
    rw [combine_graphs_pair_nodes h1.2.1 h2.2.1,
      combine_graphs_pair_nodes h2.2.1 h1.2.1]
    exact or_comm
  · intro x y
    rw [combine_graphs_pair_hasEdge, combine_graphs_pair_hasEdge]
    exact Bool.or_comm _ _
  · refine ⟨nxCompose g1 g2, nxCompose g2 g1, rfl, rfl, ?_, ?_⟩
    · intro x
      rw [nxCompose_pair_nodes h1.2.1 h2.2.1 x,
        nxCompose_pair_nodes h2.2.1 h1.2.1 x]
      exact or_comm
    · intro x y
      rw [nxCompose_pair_hasEdge, nxCompose_pair_hasEdge]
      exact Bool.or_comm _ _

/-- Witness for C3 (amended) on the two concrete attribute-conflict
graphs. -/
theorem combine_graphs_attribute_policy_witness :
    edgeAttrs? (combine_graphs [gAttr1, gAttr2]) "A" "B" =
      edgeAttrs? gAttr1 "A" "B" ∧
    (∃ h, combine_graphs_reduce [gAttr1, gAttr2] = .ok h ∧
      edgeAttrs? h "A" "B" =
        some (attrsUpdate [("score", "1")] [("score", "2")])) :=
  ⟨(combine_graphs_attribute_policy gAttr1 gAttr2
      (by decide) (by decide)).1 "A" "B" (by rfl),
   (combine_graphs_attribute_policy gAttr1 gAttr2
      (by decide) (by decide)).2.1 "A" "B" [("score", "1")] [("score", "2")]
      (by rfl) (by rfl)⟩

/-! ## Claim C7 -/

/-- C7 counterexample: the `add_paralogs.py` `combine_graphs` applied to
an empty sequence does not fail — it returns the empty graph. -/
theorem combine_graphs_empty_returns_empty_graph :
    combine_graphs ([] : List Graph) = nxEmpty ∧ nxEmpty.nodes = [] :=
  ⟨rfl, rfl⟩

/-- C7 amended: the reduce-based `combine_graphs` of
`string_db_combined_graph.py` fails on an empty sequence and returns the
graph itself for a singleton sequence; the `add_paralogs.py`
`combine_graphs` returns the empty graph on an empty sequence and, for a
well-formed single graph, a graph equivalent to it (same node set, same
edge set, same attributes). -/
theorem combine_empty_and_singleton_behaviour :
    combine_graphs_reduce ([] : List Graph) = .error .emptyInput ∧
    (∀ g : Graph, combine_graphs_reduce [g] = .ok g) ∧
    combine_graphs ([] : List Graph) = nxEmpty ∧
    (∀ g : Graph, WF g →
      (∀ x, x ∈ (combine_graphs [g]).nodes ↔ x ∈ g.nodes) ∧
      (∀ x y, hasEdge (combine_graphs [g]) x y = hasEdge g x y) ∧
      (∀ x y, edgeAttrs? (combine_graphs [g]) x y = edgeAttrs? g x y)) := by
  refine ⟨rfl, fun g => rfl, rfl, ?_⟩
  intro g hwf
  refine ⟨?_, ?_, ?_⟩
  · intro x
    show x ∈ (addGraphEdgesGuarded (addGraphNodes nxEmpty g.nodes) g.edges).nodes ↔ _
    rw [combineStep_nodes hwf.2.1]
    show x ∈ ([] : List String) ∨ _ ↔ _
    simp only [List.not_mem_nil, false_or]
  · intro x y
    show hasEdge (addGraphEdgesGuarded (addGraphNodes nxEmpty g.nodes) g.edges) x y = _
    rw [combineStep_hasEdge]
    rw [show hasEdge nxEmpty x y = false from rfl, Bool.false_or]
  · intro x y
    show edgeAttrs? (addGraphEdgesGuarded (addGraphNodes nxEmpty g.nodes) g.edges) x y = _
    rw [combineStep_attrs]
    rw [show edgeAttrs? nxEmpty x y = none from rfl, Option.none_or]

/-- Witness for C7 (amended) on a concrete single graph. -/
theorem combine_empty_and_singleton_behaviour_witness :
    (∀ x, x ∈ (combine_graphs [gAttr1]).nodes ↔ x ∈ gAttr1.nodes) ∧
    (∀ x y, hasEdge (combine_graphs [gAttr1]) x y = hasEdge gAttr1 x y) ∧
    (∀ x y, edgeAttrs? (combine_graphs [gAttr1]) x y = edgeAttrs? gAttr1 x y) :=
  combine_empty_and_singleton_behaviour.2.2.2 gAttr1 (by decide)

/-! ## Simple-path enumeration lemmas -/

theorem walk_nodes_mem {g : Graph} (hwf : WF g) :
    ∀ {p : List String} {s : String}, List.Chain' (Adj g) p →
      p.head? = some s → s ∈ g.nodes → ∀ x ∈ p, x ∈ g.nodes := by
  intro p
  induction p with
  | nil => intro s _ hh _ x hx; exact absurd hx (List.not_mem_nil x)
  | cons a rest ih =>
    intro s hc hh hs x hx
    have ha : a = s := by
      simp only [List.head?_cons, Option.some.injEq] at hh
      exact hh
    subst ha
    rcases List.mem_cons.mp hx with rfl | hx
    · exact hs
    · cases rest with
      | nil => exact absurd hx (List.not_mem_nil x)
      | cons b rest2 =>
        have hadj : Adj g a b := (List.chain'_cons.mp hc).1
        exact ih (List.chain'_cons.mp hc).2 rfl (adj_mem hwf hadj).2 x hx

theorem chainB_iff {g : Graph} :
    ∀ {p : List String}, chainB g p = true ↔ List.Chain' (Adj g) p := by
  intro p
  induction p with
  | nil => simp [chainB]
  | cons a rest ih =>
    cases rest with
    | nil => simp [chainB]
    | cons b rest2 =>
      rw [chainB, List.chain'_cons, Bool.and_eq_true, ih]
      exact and_congr_left (fun _ => Iff.rfl)

theorem isSimplePathB_iff {g : Graph} {s t : String} {p : List String} :
    isSimplePathB g s t p = true ↔
      (p.head? = some s ∧ p.getLast? = some t ∧ p.Nodup ∧
        List.Chain' (Adj g) p) := by
  simp [isSimplePathB, chainB_iff, and_assoc]

theorem mem_candidatePaths {g : Graph} {p : List String}
    (hnd : p.Nodup) (hsub : ∀ x ∈ p, x ∈ g.nodes) :
    p ∈ candidatePaths g := by
  have hsub' : p ⊆ g.nodes.dedup := fun x hx => List.mem_dedup.mpr (hsub x hx)
  obtain ⟨q, hqp, hq⟩ := hnd.subperm hsub'
  rw [candidatePaths, List.mem_flatMap]
  exact ⟨q, List.mem_sublists.mpr hq, List.mem_permutations'.mpr hqp.symm⟩

theorem mem_all_simple_paths {g : Graph} (hwf : WF g) {s t : String}
    (hs : s ∈ g.nodes) {p : List String} :
    p ∈ all_simple_paths g s t ↔
      (p.head? = some s ∧ p.getLast? = some t ∧ p.Nodup ∧
        List.Chain' (Adj g) p) := by
  constructor
  · intro hp
    exact isSimplePathB_iff.mp (List.mem_filter.mp hp).2
  · intro hc
    rw [all_simple_paths, List.mem_filter]
    refine ⟨mem_candidatePaths hc.2.2.1 ?_, isSimplePathB_iff.mpr hc⟩
    exact walk_nodes_mem hwf hc.2.2.2 hc.1 hs

/-! ## Claim C6 -/

/-- C6: for every integer `node_dist_threshold` outside the open range
(2, 10) — the bounds 2 and 10 themselves included in the rejection — both
`get_paths` variants fail with the parameter-range error, whatever the
graph, source and target are (the check precedes any graph access or
traversal). -/
theorem get_paths_parameter_range_check :
    ∀ (g : Graph) (s t : String) (k : Int), ¬(2 < k ∧ k < 10) →
      get_paths g s t k = .error .parameterRange ∧
      get_paths_single g s t k = .error .parameterRange := by
  intro g s t k hk
  constructor
  · rw [get_paths, if_pos hk]
  · rw [get_paths_single, if_pos hk]

/-- Witness for C6: the boundary value 10 is rejected, even on an empty
graph with absent endpoint nodes. -/
theorem get_paths_parameter_range_check_witness :
    ¬((2 : Int) < 10 ∧ (10 : Int) < 10) ∧
    get_paths nxEmpty "X" "Y" 10 = .error .parameterRange ∧
    get_paths_single nxEmpty "X" "Y" 10 = .error .parameterRange :=
  ⟨by decide,
   (get_paths_parameter_range_check nxEmpty "X" "Y" 10 (by decide)).1,
   (get_paths_parameter_range_check nxEmpty "X" "Y" 10 (by decide)).2⟩
/-! ## Claim C4 -/

/-- C4 counterexample: `get_paths` of `string_db_parser.py` performs no
connectivity check — on the disconnected graph A - B, C - D it returns the
empty path list instead of failing. -/
theorem get_paths_disconnected_returns_empty_list :
    get_paths gDisc "A" "C" 5 = .ok [] := by rfl

/-- C4 amended: on a well-formed graph whose source and target both exist
but lie in different connected components (no walk of any length joins
them) and with an in-range threshold, the `string_db_parser_single.py`
`get_paths` aborts fatally with the path-not-found stop condition (before
any subgraph is produced), while the `string_db_parser.py` `get_paths`
instead returns an empty path list. -/
theorem get_paths_disconnected_behaviour :
    ∀ (g : Graph) (s t : String) (k : Int), WF g →
      s ∈ g.nodes → t ∈ g.nodes → ¬Reachable g s t → 2 < k → k < 10 →
      get_paths_single g s t k = .error .pathNotFound ∧
      get_paths g s t k = .ok [] := by
  intro g s t k hwf hs ht hconn hk1 hk2
  have hnode : ¬((!(hasNode g s) || !(hasNode g t)) = true) := by
    simp [hasNode_iff, hs, ht]
  have hasp : all_simple_paths g s t = [] := by
    rw [List.eq_nil_iff_forall_not_mem]
    intro p hp
    have hc := (mem_all_simple_paths hwf hs).mp hp
    exact hconn ⟨p.length, p, hc.1, hc.2.1, hc.2.2.2, by omega⟩
  constructor
  · rw [get_paths_single, if_neg (not_not_intro ⟨hk1, hk2⟩), if_neg hnode]
    have hdist : ¬((distOpt g s t).isSome = true) := by
      intro hsome
      exact hconn ((reachable_iff_distOpt hwf).mpr hsome)
    rw [if_neg hdist]
  · rw [get_paths, if_neg (not_not_intro ⟨hk1, hk2⟩), if_neg hnode, hasp]
    rfl

/-- Witness for C4 (amended) on the concrete disconnected graph. -/
theorem get_paths_disconnected_behaviour_witness :
    get_paths_single gDisc "A" "C" 5 = .error .pathNotFound ∧
    get_paths gDisc "A" "C" 5 = .ok [] :=
  get_paths_disconnected_behaviour gDisc "A" "C" 5 (by decide) (by decide)
    (by decide)
    (fun hr => absurd ((reachable_iff_distOpt (by decide)).mp hr) (by decide))
    (by decide) (by decide)

/-! ## Claim C2 -/

theorem mem_subgraphOn_nodes {g : Graph} {keep : List String} {n : String} :
    n ∈ (subgraphOn g keep).nodes ↔ n ∈ g.nodes ∧ n ∈ keep := by
  show n ∈ g.nodes.filter _ ↔ _
  rw [List.mem_filter]
  simp

theorem mem_subgraphOn_edges {g : Graph} {keep : List String}
    {e : String × String × AttrList} :
    e ∈ (subgraphOn g keep).edges ↔
      e ∈ g.edges ∧ e.1 ∈ keep ∧ e.2.1 ∈ keep := by
  show e ∈ g.edges.filter _ ↔ _
  rw [List.mem_filter]
  simp

theorem mem_get_unique_internal_nodes {ps : List (List String)} {n : String} :
    n ∈ get_unique_internal_nodes ps ↔ ∃ p ∈ ps, n ∈ (p.drop 1).dropLast := by
  rw [get_unique_internal_nodes, List.mem_dedup, List.mem_flatMap]

/-- C2: on a well-formed graph containing both endpoints, with the two
endpoints connected and an in-range `max_nodes`, the path-extraction
pipeline of `string_db_parser.py` returns exactly the simple paths from
source to target with at most `max_nodes + 1` nodes (each returned path
starts at the source, ends at the target, repeats no node, and every
qualifying simple path is returned), together with the induced subgraph of
the graph on the source, the target, and the nodes lying strictly between
the endpoints of some returned path. -/
theorem extract_bounded_paths_spec :
    ∀ (g : Graph) (s t : String) (k : Int), WF g →
      s ∈ g.nodes → t ∈ g.nodes → Reachable g s t → 2 < k → k < 10 →
      ∃ ps sub, extract_bounded_paths g s t k = .ok (ps, sub) ∧
        (∀ p, p ∈ ps ↔
          (p.head? = some s ∧ p.getLast? = some t ∧ p.Nodup ∧
            List.Chain' (Adj g) p ∧ (p.length : Int) ≤ k + 1)) ∧
        (∀ n, n ∈ sub.nodes ↔
          (n = s ∨ n = t ∨ ∃ p ∈ ps, n ∈ (p.drop 1).dropLast)) ∧
        (∀ e, e ∈ sub.edges ↔
          e ∈ g.edges ∧ e.1 ∈ sub.nodes ∧ e.2.1 ∈ sub.nodes) := by
  intro g s t k hwf hs ht hconn hk1 hk2
  have hnode : ¬((!(hasNode g s) || !(hasNode g t)) = true) := by
    simp [hasNode_iff, hs, ht]
  have hget : get_paths g s t k =
      .ok ((all_simple_paths g s t).filter
        (fun p => (p.length : Int) ≤ k + 1)) := by
    rw [get_paths, if_neg (not_not_intro ⟨hk1, hk2⟩), if_neg hnode]
  have hmemps : ∀ p, p ∈ (all_simple_paths g s t).filter
      (fun p => (p.length : Int) ≤ k + 1) ↔
      (p.head? = some s ∧ p.getLast? = some t ∧ p.Nodup ∧
        List.Chain' (Adj g) p ∧ (p.length : Int) ≤ k + 1) := by
    intro p
    rw [List.mem_filter, mem_all_simple_paths hwf hs]
    simp only [decide_eq_true_eq]
    tauto
  have hinner : ∀ p ∈ (all_simple_paths g s t).filter
      (fun p => (p.length : Int) ≤ k + 1), ∀ n ∈ (p.drop 1).dropLast,
      n ∈ g.nodes := by
    intro p hp n hn
    have hc := (mem_all_simple_paths hwf hs).mp (List.mem_filter.mp hp).1
    have hsubl : List.Sublist ((p.drop 1).dropLast) p :=
      (List.dropLast_sublist _).trans (List.drop_sublist 1 p)
    exact walk_nodes_mem hwf hc.2.2.2 hc.1 hs n (hsubl.subset hn)
  have hnodes : ∀ n, n ∈ (get_inner_subgraph g (get_unique_internal_nodes
      ((all_simple_paths g s t).filter (fun p => (p.length : Int) ≤ k + 1)))
      s t).nodes ↔
      (n = s ∨ n = t ∨ ∃ p ∈ (all_simple_paths g s t).filter
        (fun p => (p.length : Int) ≤ k + 1), n ∈ (p.drop 1).dropLast) := by
    intro n
    rw [get_inner_subgraph, mem_subgraphOn_nodes, List.mem_append,
      mem_get_unique_internal_nodes]
    constructor
    · rintro ⟨hn, hint | hst⟩
      · exact Or.inr (Or.inr hint)
      · rcases List.mem_cons.mp hst with rfl | hst
        · exact Or.inl rfl
        · rcases List.mem_cons.mp hst with rfl | hst
          · exact Or.inr (Or.inl rfl)
          · exact absurd hst (List.not_mem_nil n)
    · rintro (rfl | rfl | ⟨p, hp, hmem⟩)
      · exact ⟨hs, Or.inr (by simp)⟩
      · exact ⟨ht, Or.inr (by simp)⟩
      · exact ⟨hinner p hp n hmem, Or.inl ⟨p, hp, hmem⟩⟩
  refine ⟨(all_simple_paths g s t).filter (fun p => (p.length : Int) ≤ k + 1),
    get_inner_subgraph g (get_unique_internal_nodes
      ((all_simple_paths g s t).filter (fun p => (p.length : Int) ≤ k + 1)))
      s t, ?_, hmemps, hnodes, ?_⟩
  · rw [extract_bounded_paths, hget]
  · intro e
    rw [get_inner_subgraph, mem_subgraphOn_edges]
    constructor
    · rintro ⟨he, h1, h2⟩
      refine ⟨he, ?_, ?_⟩
      · rw [mem_subgraphOn_nodes]
        exact ⟨(hwf.2.1 e he).1, h1⟩
      · rw [mem_subgraphOn_nodes]
        exact ⟨(hwf.2.1 e he).2, h2⟩
    · rintro ⟨he, h1, h2⟩
      rw [mem_subgraphOn_nodes] at h1 h2
      exact ⟨he, h1.2, h2.2⟩

/-- Witness for C2 on the two-parallel-paths graph of spec scenario 2. -/
theorem extract_bounded_paths_spec_witness :
    ∃ ps sub, extract_bounded_paths gDiamond "A" "C" 3 = .ok (ps, sub) ∧
      (∀ p, p ∈ ps ↔
        (p.head? = some "A" ∧ p.getLast? = some "C" ∧ p.Nodup ∧
          List.Chain' (Adj gDiamond) p ∧ (p.length : Int) ≤ 3 + 1)) ∧
      (∀ n, n ∈ sub.nodes ↔
        (n = "A" ∨ n = "C" ∨ ∃ p ∈ ps, n ∈ (p.drop 1).dropLast)) ∧
      (∀ e, e ∈ sub.edges ↔
        e ∈ gDiamond.edges ∧ e.1 ∈ sub.nodes ∧ e.2.1 ∈ sub.nodes) :=
  extract_bounded_paths_spec gDiamond "A" "C" 3 (by decide) (by decide)
    (by decide)
    ⟨2, ["A", "B", "C"], rfl, rfl, chainB_iff.mp (by rfl), by decide⟩
    (by decide) (by decide)

/-! ## Claim C5 -/

theorem filter_contains_singleton {l : List String} {c : String}
    (hnd : l.Nodup) (hc : c ∈ l) :
    l.filter (fun n => ([c] : List String).contains n) = [c] := by
  induction l with
  | nil => exact absurd hc (List.not_mem_nil c)
  | cons a rest ih =>
    rw [List.filter_cons]
    by_cases hac : a = c
    · subst hac
      have hnotin : a ∉ rest := (List.nodup_cons.mp hnd).1
      rw [if_pos (by simp)]
      have hnil : rest.filter (fun n => ([a] : List String).contains n) = [] := by
        rw [List.filter_eq_nil_iff]
        intro x hx hcon
        have : x = a := by simpa using hcon
        subst this
        exact hnotin hx
      rw [hnil]
    · have hcrest : c ∈ rest := by
        rcases List.mem_cons.mp hc with rfl | hr
        · exact absurd rfl hac
        · exact hr
      have hval : (([c] : List String).contains a) = false := by
        simp [hac]
      rw [if_neg (by rw [hval]; exact Bool.false_ne_true)]
      exact ih (List.nodup_cons.mp hnd).2 hcrest

/-- C5: for a well-formed graph `g` containing the center node, `ego`
returns exactly the nodes whose shortest hop distance to the center is at
most the radius (the center itself at distance 0), with exactly the edges
of `g` whose endpoints both lie in that node set; at radius 0 the result
is the single-node graph on the center with no edges. -/
theorem ego_graph_spec :
    ∀ (g : Graph) (center : String) (radius : Nat) (h : Graph), WF g →
      center ∈ g.nodes → ego_graph g center radius = .ok h →
      (∀ n, n ∈ h.nodes ↔ n ∈ g.nodes ∧ WalkConn g center n radius) ∧
      (∀ e, e ∈ h.edges ↔
        e ∈ g.edges ∧ e.1 ∈ h.nodes ∧ e.2.1 ∈ h.nodes) ∧
      (radius = 0 → h.nodes = [center] ∧ h.edges = []) := by
  intro g c r h hwf hc hok
  rw [ego_graph] at hok
  rw [if_neg (by simp [hasNode_iff, hc])] at hok
  injection hok with hok
  subst hok
  refine ⟨?_, ?_, ?_⟩
  · intro n
    rw [mem_subgraphOn_nodes]
    constructor
    · rintro ⟨h1, h2⟩
      exact ⟨h1, ball_sound h2⟩
    · rintro ⟨h1, h2⟩
      exact ⟨h1, ball_complete hwf h2⟩
  · intro e
    rw [mem_subgraphOn_edges]
    constructor
    · rintro ⟨he, h1, h2⟩
      exact ⟨he, mem_subgraphOn_nodes.mpr ⟨(hwf.2.1 e he).1, h1⟩,
        mem_subgraphOn_nodes.mpr ⟨(hwf.2.1 e he).2, h2⟩⟩
    · rintro ⟨he, h1, h2⟩
      exact ⟨he, (mem_subgraphOn_nodes.mp h1).2, (mem_subgraphOn_nodes.mp h2).2⟩
  · rintro rfl
    constructor
    · show g.nodes.filter (fun n => (([c] : List String)).contains n) = [c]
      exact filter_contains_singleton hwf.1 hc
    · show g.edges.filter
        (fun e => (([c] : List String)).contains e.1 &&
          (([c] : List String)).contains e.2.1) = []
      rw [List.filter_eq_nil_iff]
      intro e he hcon
      have h1 : e.1 = c ∧ e.2.1 = c := by simpa using hcon
      exact hwf.2.2.1 e he (h1.1.trans h1.2.symm)

/-- Witness for C5 at radius 0 on the path graph A - B - C. -/
theorem ego_graph_spec_witness :
    (∀ n, n ∈ (Graph.mk ["A"] []).nodes ↔
      n ∈ gPath3.nodes ∧ WalkConn gPath3 "A" n 0) ∧
    (∀ e, e ∈ (Graph.mk ["A"] []).edges ↔
      e ∈ gPath3.edges ∧ e.1 ∈ (Graph.mk ["A"] []).nodes ∧
        e.2.1 ∈ (Graph.mk ["A"] []).nodes) ∧
    ((0 : Nat) = 0 → (Graph.mk ["A"] []).nodes = ["A"] ∧
      (Graph.mk ["A"] []).edges = []) :=
  ego_graph_spec gPath3 "A" 0 (Graph.mk ["A"] []) (by decide) (by decide)
    (by rfl)

/-! ## Claim C9 -/

theorem mem_updateEdge_endpoints {u v : String} {a : AttrList} :
    ∀ {es : List (String × String × AttrList)} {e' : String × String × AttrList},
      e' ∈ updateEdge u v a es → ∃ e ∈ es, e'.1 = e.1 ∧ e'.2.1 = e.2.1 := by
  intro es
  induction es with
  | nil => intro e' h; exact absurd h (List.not_mem_nil e')
  | cons e rest ih =>
    intro e' h
    simp only [updateEdge] at h
    by_cases hm : edgeMatches u v e = true
    · rw [if_pos hm] at h
      rcases List.mem_cons.mp h with rfl | hmem
      · exact ⟨e, List.mem_cons_self e rest, rfl, rfl⟩
      · exact ⟨e', List.mem_cons_of_mem e hmem, rfl, rfl⟩
    · rw [if_neg hm] at h
      rcases List.mem_cons.mp h with rfl | hmem
      · exact ⟨e', List.mem_cons_self e' rest, rfl, rfl⟩
      · obtain ⟨e2, he2, h1, h2⟩ := ih hmem
        exact ⟨e2, List.mem_cons_of_mem e he2, h1, h2⟩

theorem noSelfLoop_addEdge {g : Graph} {u v : String} {a : AttrList}
    (hg : ∀ e ∈ g.edges, e.1 ≠ e.2.1) (huv : u ≠ v) :
    ∀ e ∈ (addEdge g u v a).edges, e.1 ≠ e.2.1 := by
  intro e he
  unfold addEdge at he
  split at he
  · obtain ⟨e2, he2, h1, h2⟩ := mem_updateEdge_endpoints he
    rw [h1, h2]
    exact hg e2 he2
  · rcases List.mem_append.mp he with hmem | hmem
    · exact hg e hmem
    · rcases List.mem_cons.mp hmem with rfl | hnil
      · exact huv
      · exact absurd hnil (List.not_mem_nil e)

theorem from_pandas_edgelist_no_self_loop {df : DataFrame} {src tgt : String}
    (hrows : ∀ row ∈ df.rows, rowVal row src ≠ rowVal row tgt) :
    ∀ e ∈ (from_pandas_edgelist df src tgt).edges, e.1 ≠ e.2.1 := by
  suffices h : ∀ (rows : List (List (String × String))) (g : Graph),
      (∀ row ∈ rows, rowVal row src ≠ rowVal row tgt) →
      (∀ e ∈ g.edges, e.1 ≠ e.2.1) →
      ∀ e ∈ (rows.foldl (fun g row =>
        addEdge g (rowVal row src) (rowVal row tgt) []) g).edges,
        e.1 ≠ e.2.1 by
    exact h df.rows nxEmpty hrows
      (fun e he => absurd he (List.not_mem_nil e))
  intro rows
  induction rows with
  | nil => intro g _ hg; exact hg
  | cons row rest ih =>
    intro g hrows2 hg
    show ∀ e ∈ (rest.foldl _
      (addEdge g (rowVal row src) (rowVal row tgt) [])).edges, _
    exact ih _ (fun r hr => hrows2 r (List.mem_cons_of_mem row hr))
      (noSelfLoop_addEdge hg (hrows2 row (List.mem_cons_self row rest)))

/-- C9 counterexample: a record carrying the same value in the source
field and the target field makes `make_graph` build a self-loop. -/
theorem make_graph_self_loop_from_equal_fields :
    make_graph dfSelfLoop "#node1" "node2" =
      .ok (Graph.mk ["A"] [("A", "A", [])]) ∧
    ("A", "A", ([] : AttrList)) ∈ (Graph.mk ["A"] [("A", "A", [])]).edges ∧
    ("A", "A", ([] : AttrList)).1 = ("A", "A", ([] : AttrList)).2.1 :=
  ⟨rfl, by decide, rfl⟩

/-- C9 amended: the built graph contains no self-loop provided every
record carries distinct values in the source field and the target field;
a record with equal values in the two fields produces a self-loop. -/
theorem make_graph_no_self_loop_of_distinct_fields :
    ∀ (df : DataFrame) (lcol rcol : String) (g : Graph),
      (∀ row ∈ df.rows, rowVal row lcol ≠ rowVal row rcol) →
      make_graph df lcol rcol = .ok g →
      ∀ e ∈ g.edges, e.1 ≠ e.2.1 := by
  intro df lcol rcol g hrows hok
  rw [make_graph] at hok
  split at hok
  · exact Except.noConfusion hok
  · split at hok
    · exact Except.noConfusion hok
    · split at hok
      · exact Except.noConfusion hok
      · injection hok with hok
        subst hok
        exact from_pandas_edgelist_no_self_loop hrows

/-- Witness for C9 (amended) on a single record with distinct endpoint
values. -/
theorem make_graph_no_self_loop_of_distinct_fields_witness :
    ("A", "B", ([] : AttrList)).1 ≠ ("A", "B", ([] : AttrList)).2.1 :=
  make_graph_no_self_loop_of_distinct_fields
    (DataFrame.mk ["#node1", "node2"] [[("#node1", "A"), ("node2", "B")]])
    "#node1" "node2" (Graph.mk ["A", "B"] [("A", "B", [])])
    (by decide) (by rfl) ("A", "B", []) (by decide)

/-! ## Claim C10 -/

/-- C10 counterexample: on the file text `"A\n\nB"` the parsed seed list
keeps the blank line as an empty token. -/
theorem read_proteins_file_keeps_blank_lines :
    read_proteins_file "A\n\nB" = ["A", "", "B"] ∧
    "" ∈ read_proteins_file "A\n\nB" :=
  ⟨rfl, by decide⟩

/-- C10 amended: parsing returns one token per line of the file — each
line stripped of surrounding whitespace, in file order — and blank lines
are not ignored: they contribute empty tokens. -/
theorem read_proteins_file_one_token_per_line :
    ∀ content : String,
      (read_proteins_file content).length = (pyReadlines content).length ∧
      (∀ i : Nat, (read_proteins_file content)[i]? =
        ((pyReadlines content)[i]?).map pyStrip) ∧
      (∀ tok, tok ∈ read_proteins_file content ↔
        ∃ line ∈ pyReadlines content, tok = pyStrip line) := by
  intro content
  refine ⟨List.length_map _ _, fun i => List.getElem?_map pyStrip _ i, ?_⟩
  intro tok
  rw [read_proteins_file, List.mem_map]
  constructor
  · rintro ⟨line, hline, rfl⟩
    exact ⟨line, hline, rfl⟩
  · rintro ⟨line, hline, rfl⟩
    exact ⟨line, hline, rfl⟩

/-- Witness for C10 (amended) on a concrete file text with a blank line. -/
theorem read_proteins_file_one_token_per_line_witness :
    (read_proteins_file "A\n\nB").length = (pyReadlines "A\n\nB").length ∧
    "" ∈ read_proteins_file "A\n\nB" :=
  ⟨(read_proteins_file_one_token_per_line "A\n\nB").1,
   ((read_proteins_file_one_token_per_line "A\n\nB").2.2 "").mpr
     ⟨"", by decide, by decide⟩⟩
